import Mathlib

/-!
Verification of the langscikw keyword-extraction pipeline.

This file gives a shallow embedding, in Lean 4, of the orchestration and
merge logic of the langscikw package (src/langscikw/): the KWE pipeline
state machine (langscikw.py), the deduplication pass KWE._deduplicate,
the filler-keyword filter KWE._extract_filler_kws, the top-N selection
TfidfExtractor._extract_topn_from_matrix (tfidfmodel.py), and the toolkit
functions _sort_chapters, read_text, _find_text_files and save_keywords
(kwe_toolkit.py), together with the jaro_winkler string similarity from
the jellyfish library that kwe_toolkit.distance wraps.

Modelling conventions:
* Python floats are modelled as exact rationals (ℚ); all concrete
  inputs are chosen far from rounding boundaries.
* Python strings are modelled as Lean String values; the character
  predicates (isalpha, islower, isupper, lower) are modelled at ASCII
  granularity, which covers every input appearing in this development.
* Python set iteration order (in KWE._deduplicate) is modelled as
  first-occurrence order of the underlying candidate list.
* Python exceptions are modelled with Option/Except: a None/error result
  stands for an exception escaping the modelled function.
* rational literals are written with mkRat so that every definition
  evaluates by kernel reduction.
-/

/-! ## Python string primitives -/

/-- Model of the Python test `c.islower() or c.isupper()` for one character
(a "cased" character), at ASCII granularity. -/
def pyCased (c : Char) : Bool := c.isLower || c.isUpper

/-- Model of Python str.islower: at least one cased character and no
uppercase character. -/
def pyIsLower (s : String) : Bool :=
  s.data.any pyCased && s.data.all (fun c => !c.isUpper)

/-- Model of Python str.isupper: at least one cased character and no
lowercase character. -/
def pyIsUpper (s : String) : Bool :=
  s.data.any pyCased && s.data.all (fun c => !c.isLower)

/-- Model of Python str.isalpha: non-empty and all characters alphabetic. -/
def pyIsAlpha (s : String) : Bool :=
  s ≠ "" && s.data.all Char.isAlpha

/-- Model of Python str.lower, at ASCII granularity. -/
def pyLower (s : String) : String := ⟨s.data.map Char.toLower⟩

/-- Splits a character list at whitespace, dropping empty pieces: the
accumulator holds the (reversed) current token. -/
def pySplitAux : List Char → List Char → List (List Char)
  | [], cur => if cur = [] then [] else [cur.reverse]
  | c :: rest, cur =>
    if c.isWhitespace then
      if cur = [] then pySplitAux rest [] else cur.reverse :: pySplitAux rest []
    else pySplitAux rest (c :: cur)

/-- Model of Python str.split() with no argument: split on whitespace runs,
with no empty tokens. -/
def pySplit (s : String) : List String :=
  (pySplitAux s.data []).map fun l => ⟨l⟩

/-- Model of the Python membership test `"-" in token` (single-character
needle). -/
def hasHyphen (s : String) : Bool := s.data.contains '-'

/-! ## The jellyfish jaro_winkler similarity

`kwe_toolkit.distance(a, b)` returns `jellyfish.jaro_winkler(a, b)`.
The following is a direct port of the jellyfish implementation of
Jaro-Winkler similarity (winklerize = True, long_tolerance = False),
computing over exact rationals instead of floats. -/

/-- Scans positions j, j+1, ... (fuel-bounded, covering the Python range
`low..hi` inclusive) for the first unflagged position of `t` holding the
character `c`. -/
def jwScan (c : Char) (t : List Char) (flags : List Bool) : Nat → Nat → Option Nat
  | _, 0 => none
  | j, fuel + 1 =>
    if flags.getD j true = false && t.getD j ' ' == c then some j
    else jwScan c t flags (j + 1) fuel

/-- The Jaro matching loop: walks the characters of `s` (first list
argument) with index `i`, keeping match flags for `t`; returns the match
flags of `s`, the final match flags of `t` and the number of matches. -/
def jwMatchLoop (t : List Char) (tLen range : Nat) :
    List Char → Nat → List Bool → List Bool × List Bool × Nat
  | [], _, tFlags => ([], tFlags, 0)
  | c :: rest, i, tFlags =>
    let lo := i - range
    let hi := min (i + range) (tLen - 1)
    match jwScan c t tFlags lo (hi + 1 - lo) with
    | some j =>
      let out := jwMatchLoop t tLen range rest (i + 1) (tFlags.set j true)
      (true :: out.1, out.2.1, out.2.2 + 1)
    | none =>
      let out := jwMatchLoop t tLen range rest (i + 1) tFlags
      (false :: out.1, out.2.1, out.2.2)

/-- Keeps the characters whose flag is set. -/
def jwFlagged : List Char → List Bool → List Char
  | c :: cs, f :: fs => if f then c :: jwFlagged cs fs else jwFlagged cs fs
  | _, _ => []

/-- Counts positionwise mismatches of two equal-length character lists
(the raw transposition count, before halving). -/
def jwMismatch : List Char → List Char → Nat
  | c :: cs, d :: ds => (if c == d then 0 else 1) + jwMismatch cs ds
  | _, _ => 0

/-- Length of the common prefix, capped. -/
def jwSharedStart : List Char → List Char → Nat → Nat
  | a :: as, b :: bs, cap + 1 =>
    if a == b then jwSharedStart as bs cap + 1 else 0
  | _, _, _ => 0

/-- Port of the jellyfish jaro_winkler similarity on character lists:
match window (max len)/2 - 1, greedy flag-based matching, transposition
count halved, and the Winkler prefix boost (factor 0.1, prefix capped at
4) applied when the Jaro weight exceeds 0.7 and both strings are longer
than 3 characters.

The Jaro weight (m/sLen + m/tLen + (m-trans)/m) / 3 is assembled over the
common denominator 3*sLen*tLen*m as the single fraction wNum/wDen, the
boost condition weight > 7/10 becomes 10*wNum > 7*wDen, and the boosted
weight w + p*(1/10)*(1-w) becomes (10*wNum + p*(wDen-wNum)) / (10*wDen);
this keeps the whole computation in Nat arithmetic, with one final mkRat,
so that concrete values evaluate by kernel reduction. -/
def jaroWinklerChars (s t : List Char) : ℚ :=
  let sLen := s.length
  let tLen := t.length
  if sLen = 0 ∨ tLen = 0 then 0
  else
    let range := max sLen tLen / 2 - 1
    let res := jwMatchLoop t tLen range s 0 (List.replicate tLen false)
    let m := res.2.2
    if m = 0 then 0
    else
      let ms := jwFlagged s res.1
      let mt := jwFlagged t res.2.1
      let trans := jwMismatch ms mt / 2
      let wNum := m * tLen * m + m * sLen * m + (m - trans) * sLen * tLen
      let wDen := 3 * sLen * tLen * m
      if 10 * wNum > 7 * wDen ∧ 3 < sLen ∧ 3 < tLen then
        let p := jwSharedStart s t (min (max sLen tLen) 4)
        mkRat (10 * wNum + p * (wDen - wNum)) (10 * wDen)
      else mkRat wNum wDen

/-- Model of kwe_toolkit.distance: the jellyfish jaro_winkler similarity
on two strings. -/
def distance (a b : String) : ℚ := jaroWinklerChars a.data b.data

/-! ## KWE._deduplicate (langscikw.py lines 143-176) -/

/-- First-occurrence deduplication of a list, with an explicit seen-list.
This models the construction of the Python set comprehension together
with the fixed iteration order assumed throughout: candidates are
iterated in first-occurrence order of the underlying list. -/
def firstOccAux (seen : List String) : List String → List String
  | [] => []
  | x :: xs =>
    if seen.contains x then firstOccAux seen xs
    else x :: firstOccAux (x :: seen) xs

/-- Models the Python expression `\x7bk[0] for k in kws\x7d` (collapse to a set
of distinct terms) under first-occurrence iteration order. -/
def firstOcc (l : List String) : List String := firstOccAux [] l

/-- The linguistic filter of KWE._deduplicate, lines 160-168, as one
predicate: a candidate is kept (reaches the similarity comparison)
iff none of the three skip conditions fires.  A candidate whose token
list is empty is not kept either; that case raises IndexError in the
source and is handled separately in dedupLoop. -/
def keepCandidate (c : String) : Bool :=
  let tokens := pySplit c
  if !tokens.all pyIsAlpha && !tokens.any hasHyphen then false
  else
    match tokens with
    | [] => false
    | t0 :: rest =>
      if tokens.count t0 > 2 then false
      else if pyIsLower t0 && (match rest.head? with
                               | some t1 => pyIsUpper t1
                               | none => false) then false
      else true

/-- The main loop of KWE._deduplicate: for each candidate (in iteration
order), skip it if a filter fires, raise IndexError (modelled as none)
if its token list is empty, and otherwise append it to the accepted list
unless its distance to some already-accepted keyword exceeds the
threshold. -/
def dedupLoop (threshold : ℚ) (acc : List String) : List String → Option (List String)
  | [] => some acc
  | c :: cs =>
    let tokens := pySplit c
    if !tokens.all pyIsAlpha && !tokens.any hasHyphen then dedupLoop threshold acc cs
    else
      match tokens with
      | [] => none
      | t0 :: rest =>
        if tokens.count t0 > 2 then dedupLoop threshold acc cs
        else if pyIsLower t0 && (match rest.head? with
                                 | some t1 => pyIsUpper t1
                                 | none => false) then dedupLoop threshold acc cs
        else if acc.all fun kw => !(threshold < distance c kw) then
          dedupLoop threshold (acc ++ [c]) cs
        else dedupLoop threshold acc cs

/-- Model of KWE._deduplicate: collapse the scored candidates to their
distinct terms, then run the filter/similarity loop.  A none result
models the IndexError raised on a candidate whose token list is empty. -/
def deduplicate (kws : List (String × ℚ)) (threshold : ℚ) : Option (List String) :=
  dedupLoop threshold [] (firstOcc (kws.map Prod.fst))

/-! ## KWE pipeline state machine (langscikw.py lines 14-73 and 183-190)

The training corpora, the sklearn vectorizer and joblib are external to
the core; a trained model is abstracted to the corpus path it was built
from, and the environment is abstracted to a predicate fsOk telling
whether the corpus at a path loads as a non-empty corpus and trains
successfully (build_corpus followed by TfidfExtractor.train, which
raises RuntimeError on an empty corpus). -/

/-- The KWE instance state: the stage-2 and stage-3 models (None until
trained) and the trained-stage counter max_steps. -/
structure KWEState where
  modelStep2 : Option String
  modelStep3 : Option String
  maxSteps : Nat
deriving DecidableEq

/-- Model of KWE.__init__: no stage-2/3 models, max_steps = 1. -/
def initKWE : KWEState := ⟨none, none, 1⟩

/-- Model of KWE._train_model: an empty corpus path returns None without
touching max_steps; otherwise steps = max_steps + 1 is computed, the
corpus is built and trained (which may raise, modelled by the fsOk
predicate being false: max_steps is then left unchanged because the
assignment on line 72 is never reached), and on success max_steps is
advanced to steps and the trained model returned. -/
def trainModel (fsOk : String → Bool) (st : KWEState) (corpusPath : String) :
    Except Unit (Option String × Nat) :=
  if corpusPath = "" then .ok (none, st.maxSteps)
  else if fsOk corpusPath then .ok (some corpusPath, st.maxSteps + 1)
  else .error ()

/-- Model of KWE.train: assigns model_step2 from the first _train_model
call, then model_step3 from the second.  An exception in either call
escapes train; the error value carries the instance state left behind
(fields assigned before the exception keep their new values). -/
def kweTrain (fsOk : String → Bool) (st : KWEState) (c2 c3 : String) :
    Except KWEState KWEState :=
  match trainModel fsOk st c2 with
  | .error _ => .error st
  | .ok (m2, ms2) =>
    let st2 : KWEState := { st with modelStep2 := m2, maxSteps := ms2 }
    match trainModel fsOk st2 c3 with
    | .error _ => .error st2
    | .ok (m3, ms3) => .ok { st2 with modelStep3 := m3, maxSteps := ms3 }

/-- Public calls of the pipeline that change the trained-stage state. -/
inductive KWEOp where
  | train (c2 c3 : String)
  | reset
deriving DecidableEq

/-- Runs one public call against the instance state.  A train call that
raises still leaves the partially updated state on the instance, so both
outcomes yield the carried state; reset (KWE.reset, lines 183-190)
restores all modelled fields to their __init__ values. -/
def runOp (fsOk : String → Bool) (st : KWEState) : KWEOp → KWEState
  | .train c2 c3 =>
    match kweTrain fsOk st c2 c3 with
    | .ok st2 => st2
    | .error st2 => st2
  | .reset => initKWE

/-- Runs a sequence of public calls from a given state. -/
def runOps (fsOk : String → Bool) (st : KWEState) (ops : List KWEOp) : KWEState :=
  ops.foldl (runOp fsOk) st

/-! ## Substring and sorting primitives for kwe_toolkit -/

/-- Tests whether the first list is an initial segment of the second. -/
def leadsWith : List Char → List Char → Bool
  | [], _ => true
  | _ :: _, [] => false
  | a :: as, b :: bs => a == b && leadsWith as bs

/-- Tests whether needle occurs as a contiguous sublist of the haystack. -/
def containsSub (needle : List Char) : List Char → Bool
  | [] => leadsWith needle []
  | c :: rest => leadsWith needle (c :: rest) || containsSub needle rest

/-- Model of the Python substring test `needle in hay`. -/
def strContains (hay needle : String) : Bool := containsSub needle.data hay.data

/-- Codepoint-lexicographic comparison of character lists, the order
Python uses to compare strings. -/
def charListLe : List Char → List Char → Bool
  | [], _ => true
  | _ :: _, [] => false
  | a :: as, b :: bs => if a < b then true else if b < a then false else charListLe as bs

/-- Stable insertion into an ascending list: the new element goes after
every already-placed element that is less than or equal to it. -/
def insertAsc (x : String) : List String → List String
  | [] => [x]
  | y :: ys => if charListLe y.data x.data then y :: insertAsc x ys else x :: y :: ys

/-- Model of Python sorted() on strings: a stable ascending sort
(insertion sort; stability is irrelevant for strings, where equal keys
are identical elements). -/
def pySorted (l : List String) : List String :=
  l.foldl (fun acc x => insertAsc x acc) []

/-! ## kwe_toolkit._sort_chapters (lines 161-176) -/

/-- Model of Python list.remove(y): removes the first occurrence of y. -/
def removeFirst : List String → String → List String
  | [], _ => []
  | x :: xs, y => if x = y then xs else x :: removeFirst xs y

/-- Model of Python list.insert(n, y): insert before position n, with
clamping to append when n exceeds the length. -/
def pyInsert : Nat → String → List String → List String
  | _, y, [] => [y]
  | 0, y, l => y :: l
  | n + 1, y, x :: xs => x :: pyInsert n y xs

/-- The introduction-pattern test of _sort_chapters, line 169. -/
def isIntroFile (f : String) : Bool :=
  strContains f "intro" || strContains f "einleitung" || strContains f "1"

/-- The conclusion-pattern test of _sort_chapters, line 173. -/
def isConclFile (f : String) : Bool := strContains f "conclusion"

/-- The for-loop of _sort_chapters, which mutates the list it iterates
over.  The Python iterator is index-based: it reads files[i], runs the
body (which may remove/insert and thereby shift elements), and proceeds
to index i+1 of the mutated list, stopping when i reaches the length.
The body keeps the length invariant, so the initial length serves as
fuel. -/
def sortChaptersGo : Nat → List String → Nat → Nat → List String
  | 0, files, _, _ => files
  | fuel + 1, files, i, c =>
    match files[i]? with
    | none => files
    | some f =>
      if isIntroFile f then sortChaptersGo fuel (pyInsert c f (removeFirst files f)) (i + 1) (c + 1)
      else if isConclFile f then sortChaptersGo fuel (removeFirst files f ++ [f]) (i + 1) c
      else sortChaptersGo fuel files (i + 1) c

/-- Model of kwe_toolkit._sort_chapters: lexicographic sort, then the
mutating reorder loop. -/
def sortChapters (files : List String) : List String :=
  let sortedFiles := pySorted files
  sortChaptersGo sortedFiles.length sortedFiles 0 0

/-! ## TfidfExtractor._extract_topn_from_matrix (tfidfmodel.py lines 110-132) -/

/-- The sort key comparison of line 127: sorted(key = (weight, index),
reverse = True).  keyGe x y holds when the (weight, index) key of x is
lexicographically greater than or equal to that of y. -/
def keyGe (x y : Nat × ℚ) : Bool :=
  (y.2 < x.2) || (y.2 == x.2 && y.1 ≤ x.1)

/-- Stable descending insertion: the new entry goes after every
already-placed entry whose key is greater than or equal to its own. -/
def insertDesc (x : Nat × ℚ) : List (Nat × ℚ) → List (Nat × ℚ)
  | [] => [x]
  | y :: ys => if keyGe y x then y :: insertDesc x ys else x :: y :: ys

/-- Model of Python sorted(tuples, key = (weight, index), reverse = True):
a stable descending sort, as an insertion sort. -/
def sortDesc (l : List (Nat × ℚ)) : List (Nat × ℚ) :=
  l.foldl (fun acc x => insertDesc x acc) []

/-- Model of _extract_topn_from_matrix: the sparse row arrives as the
coo (column index, weight) pairs; sort them by (weight, index)
descending, truncate to n, and map the index through feature_names. -/
def extractTopn (entries : List (Nat × ℚ)) (featureNames : List String) (n : Nat) :
    List (String × ℚ) :=
  ((sortDesc entries).take n).map fun e => (featureNames.getD e.1 "", e.2)

/-! ## KWE._extract_filler_kws (langscikw.py lines 114-141) -/

/-- Model of kwe_toolkit.preprocess: the identity (the naive
lemmatization in the source is commented out). -/
def preprocess (s : String) : String := s

/-- Splits a character list at each newline character, keeping empty
pieces: Python str.split with an explicit separator. -/
def splitNLAux : List Char → List Char → List (List Char)
  | [], cur => [cur.reverse]
  | c :: rest, cur =>
    if c == '\n' then cur.reverse :: splitNLAux rest []
    else splitNLAux rest (c :: cur)

/-- Joins character lists with a separator. -/
def joinSep (sep : List Char) : List (List Char) → List Char
  | [] => []
  | [l] => l
  | l :: rest => l ++ sep ++ joinSep sep rest

/-- Splits at non-overlapping occurrences of a (non-empty) separator
sublist, left to right; fuel-bounded structural recursion. -/
def splitSubAux (sep : List Char) : Nat → List Char → List Char → List (List Char)
  | 0, _, cur => [cur.reverse]
  | fuel + 1, l, cur =>
    if leadsWith sep l && !sep.isEmpty then
      cur.reverse :: splitSubAux sep fuel (l.drop sep.length) []
    else
      match l with
      | [] => [cur.reverse]
      | c :: rest => splitSubAux sep fuel rest (c :: cur)

/-- Model of Python str.split(sep) for a non-empty separator string. -/
def splitSub (sep l : List Char) : List (List Char) :=
  splitSubAux sep (l.length + 1) l []

/-- Model of lines 133-136: the reference keywords file content is split
at newlines, the last piece is dropped ([:-1]), and the lines are passed
through preprocess in bulk by joining them with the delimiter " § " and
splitting at it again. -/
def kwCorpusLines (content : String) : List String :=
  let lines := (splitNLAux content.data []).dropLast
  (splitSub [' ', '§', ' '] (preprocess ⟨joinSep [' ', '§', ' '] lines⟩).data).map fun l => ⟨l⟩

/-- Model of lines 139-140: keep the candidates whose term is in the
reference set verbatim, then additionally emit (term.lower(), score) for
every candidate whose lower-cased term is in the reference set. -/
def fillerUnion (kws : List (String × ℚ)) (corpus : List String) : List (String × ℚ) :=
  kws.filter (fun k => corpus.contains k.1) ++
    (kws.filter fun k => corpus.contains (pyLower k.1)).map fun k => (pyLower k.1, k.2)

/-- Model of KWE._extract_filler_kws, with the stage-3 extraction result
(kws, line 130) and the reference file content as inputs; set membership
is modelled as list membership of the distinct lines. -/
def extractFillerKws (kws : List (String × ℚ)) (kwCorpusContent : String) :
    List (String × ℚ) :=
  fillerUnion kws (kwCorpusLines kwCorpusContent)

/-! ## kwe_toolkit.read_text (lines 84-125) and YakeExtractor.extract_keywords
(yakemodel.py lines 14-39) -/

/-- Python exception kinds raised by the modelled functions. -/
inductive PyErr where
  | typeError
  | fileNotFoundError
  | runtimeError
  | indexError
deriving DecidableEq

deriving instance DecidableEq for Except

/-- Diagnostics printed by the modelled functions. -/
inductive LogMsg where
  | cannotFindLegal
  | exceptionForFile (dir file : String)
  | exceptionForPath (path : String)
  | noTextFoundDir (path : String)
  | noTextFoundFile (path : String)
  | cannotRead (path : String)
deriving DecidableEq

/-- The file-system environment, external to the core: directory and
file tests, directory listing, and file reading.  readFile returns none
when opening or decoding the file raises. -/
structure FileSys where
  isDir : String → Bool
  isFile : String → Bool
  listDir : String → List String
  readFile : String → Option String

/-- Model of the Python slice f[-4:]: the last four characters. -/
def pyLast4 (f : String) : String := ⟨f.data.drop (f.data.length - 4)⟩

/-- The extension allow-list test of _find_text_files. -/
def legalExt (f : String) : Bool := pyLast4 f == ".txt" || pyLast4 f == ".tex"

/-- Model of _find_text_files on a list (the directory branch): filter
by extension; an empty result prints a warning and yields []. -/
def findTextFilesList (files : List String) : List String × List LogMsg :=
  let l := files.filter legalExt
  if l.isEmpty then ([], [.cannotFindLegal]) else (l, [])

/-- Model of _find_text_files on a single filename: an illegal extension
raises FileNotFoundError. -/
def findTextFilesStr (f : String) : Except PyErr String :=
  if legalExt f then .ok f else .error .fileNotFoundError

/-- The per-file body of the read_text directory loop: an unreadable
file logs a diagnostic and contributes empty content; every file
contributes its preprocessed text plus a blank-line separator. -/
def readDirFold (fs : FileSys) (path : String) (st : String × List LogMsg)
    (file : String) : String × List LogMsg :=
  match fs.readFile (path ++ "/" ++ file) with
  | some txt => (st.1 ++ preprocess txt ++ "\n\n", st.2)
  | none => (st.1 ++ preprocess "" ++ "\n\n", st.2 ++ [.exceptionForFile path file])

/-- Model of kwe_toolkit.read_text.  Directory branch: filter and
reorder the listing, then concatenate the files, recovering locally from
unreadable files; an empty filtered listing hits `raise print(...)`,
which raises TypeError (print returns None, and raising None is a
TypeError).  Single-file branch: an unreadable file logs and yields
empty text.  Fallback branches as in lines 119-125. -/
def readText (fs : FileSys) (path : String) : Except PyErr String × List LogMsg :=
  if fs.isDir path then
    let found := findTextFilesList (fs.listDir path)
    let files := sortChapters found.1
    if files.isEmpty then (.error .typeError, found.2)
    else
      let step := files.foldl (readDirFold fs path) ("", found.2)
      if step.1 = "" then (.ok step.1, step.2 ++ [.noTextFoundDir path])
      else (.ok step.1, step.2)
  else if fs.isFile path then
    match findTextFilesStr path with
    | .error e => (.error e, [])
    | .ok p =>
      match fs.readFile p with
      | some txt =>
        let t := preprocess txt
        if t = "" then (.ok t, [.noTextFoundFile p]) else (.ok t, [])
      | none =>
        let t := preprocess ""
        (.ok t, [.exceptionForPath p, .noTextFoundFile p])
  else
    match findTextFilesStr path with
    | .error e => (.error e, [])
    | .ok p => if p = "" then (.ok "", []) else (.ok "", [.cannotRead path])

/-- Model of YakeExtractor.extract_keywords: read the text (propagating
any exception), raise RuntimeError when the text is empty, and otherwise
run the YAKE keyword extractor, which is external to the core and passed
in as a function of the text. -/
def yakeExtractKeywords (yake : String → List (String × ℚ)) (fs : FileSys)
    (path : String) : Except PyErr (List (String × ℚ)) × List LogMsg :=
  let r := readText fs path
  match r.1 with
  | .error e => (.error e, r.2)
  | .ok text => if text = "" then (.error .runtimeError, r.2) else (.ok (yake text), r.2)

/-! ## kwe_toolkit.save_keywords (lines 178-190) -/

/-- An element of the Python keywords list passed to save_keywords: a
(term, score) tuple, a plain string, or a value of any other type. -/
inductive KWItem where
  | tup (term : String) (score : ℚ)
  | str (s : String)
  | other
deriving DecidableEq

/-- One iteration of the tuple-branch loop, writing k[0] + tab + str(k[1])
+ newline.  On a string element this subscripts the string (IndexError
if it is shorter than two characters); on any other element subscripting
raises TypeError.  The rendering of a float score by str() is abstracted
to the render argument. -/
def writeTupLine (render : ℚ → String) : KWItem → Except PyErr String
  | .tup t s => .ok (t ++ "\t" ++ render s ++ "\n")
  | .str s =>
    match s.data with
    | c0 :: c1 :: _ => .ok (⟨[c0]⟩ ++ "\t" ++ (⟨[c1]⟩ : String) ++ "\n")
    | _ => .error .indexError
  | .other => .error .typeError

/-- One iteration of the string-branch loop, writing k + newline; k + str
on a non-string raises TypeError. -/
def writeStrLine : KWItem → Except PyErr String
  | .str s => .ok (s ++ "\n")
  | _ => .error .typeError

/-- The write loop: writes one line per element, the first exception
escaping (lines written before it are outside the model). -/
def writeAll (f : KWItem → Except PyErr String) : List KWItem → Except PyErr (List String)
  | [] => .ok []
  | k :: rest =>
    match f k with
    | .error e => .error e
    | .ok line =>
      match writeAll f rest with
      | .error e => .error e
      | .ok lines => .ok (line :: lines)

/-- Model of kwe_toolkit.save_keywords: dispatch on the type of the
first element (keywords[0] raises IndexError on an empty list, before
any file is opened), then write all lines; a first element that is
neither tuple nor string raises TypeError.  The ok value is the list of
written lines. -/
def saveKeywords (render : ℚ → String) (keywords : List KWItem) :
    Except PyErr (List String) :=
  match keywords with
  | [] => .error .indexError
  | k :: _ =>
    match k with
    | .tup _ _ => writeAll (writeTupLine render) keywords
    | .str _ => writeAll writeStrLine keywords
    | .other => .error .typeError

/-! ## Proof-support definitions -/

/-- The similarity-collapse loop of KWE._deduplicate in isolation, on
candidates that already passed the linguistic filter: append a candidate
unless its distance to some accepted keyword exceeds the threshold. -/
def dedupGreedy (threshold : ℚ) (acc : List String) : List String → List String
  | [] => acc
  | c :: cs =>
    if acc.all (fun kw => !(threshold < distance c kw)) then
      dedupGreedy threshold (acc ++ [c]) cs
    else dedupGreedy threshold acc cs

/-- Accepts t ctx l says that each element of l passes the similarity
test against the context accumulated so far (the context grows by each
accepted element): this is the exact trace of comparisons made by a run
of dedupGreedy that accepts every element of l. -/
def Accepts (threshold : ℚ) : List String → List String → Prop
  | _, [] => True
  | ctx, c :: cs =>
    (ctx.all fun kw => !(threshold < distance c kw)) = true ∧
      Accepts threshold (ctx ++ [c]) cs

/-! ## Theorems: pipeline state machine -/

/-- C1: the trained-stage counter does NOT stay in the set 1..3: because
KWE._train_model computes steps = max_steps + 1 from the current counter
rather than from the stage being trained, a second train call on an
already-trained pipeline pushes max_steps to 4 and then 5, although only
three models exist.  This theorem evaluates the state machine at the
failing call sequence: after training twice with both corpora, the
counter reads 5. -/
theorem trained_stage_counter_exceeds_three_on_retrain :
    (runOps (fun _ => true) initKWE
      [KWEOp.train "corpus2.txt" "corpus3.txt",
       KWEOp.train "corpus2.txt" "corpus3.txt"]).maxSteps = 5 := by decide

/-- C2 counterexample: calling train with an empty corpus_step2 path and
a non-empty corpus_step3 path leaves model_step2 = None while training
model_step3, so a present stage-3 model does not imply a present stage-2
model for all argument combinations. -/
theorem stage3_without_stage2_counterexample :
    (runOps (fun _ => true) initKWE [KWEOp.train "" "corpus3.txt"]).modelStep3.isSome = true ∧
      (runOps (fun _ => true) initKWE [KWEOp.train "" "corpus3.txt"]).modelStep2 = none := by
  decide

/-- Helper for C2: one public call preserves the stage3-implies-stage2
invariant provided a train call never passes an empty corpus_step2. -/
theorem runOp_preserves_stage_inv (fsOk : String → Bool) (st : KWEState) (op : KWEOp)
    (hop : ∀ c2 c3, op = KWEOp.train c2 c3 → c2 ≠ "")
    (hst : st.modelStep3.isSome = true → st.modelStep2.isSome = true) :
    (runOp fsOk st op).modelStep3.isSome = true →
      (runOp fsOk st op).modelStep2.isSome = true := by
  cases op with
  | reset => intro h3; simp [runOp, initKWE] at h3
  | train c2 c3 =>
    have hc2 : c2 ≠ "" := hop c2 c3 rfl
    simp only [runOp, kweTrain, trainModel, if_neg hc2]
    by_cases hf : fsOk c2 = true
    · by_cases hc3 : c3 = ""
      · simp [hf, hc3]
      · by_cases hf3 : fsOk c3 = true
        · simp [hf, hc3, hf3]
        · simp [hf, hc3, hf3]
    · simp only [Bool.not_eq_true] at hf
      simp [hf]
      exact hst

/-- C2 (amended): a present stage-3 model implies a present stage-2
model for every call sequence in which each train call passes a
non-empty corpus_step2 path; the unamended claim fails exactly on the
empty-corpus_step2 combination of the counterexample. -/
theorem stage3_implies_stage2_of_nonempty_corpus2
    (fsOk : String → Bool) (ops : List KWEOp)
    (hops : ∀ c2 c3, KWEOp.train c2 c3 ∈ ops → c2 ≠ "")
    (h3 : (runOps fsOk initKWE ops).modelStep3.isSome = true) :
    (runOps fsOk initKWE ops).modelStep2.isSome = true := by
  suffices h : ∀ (ops : List KWEOp) (st : KWEState),
      (∀ c2 c3, KWEOp.train c2 c3 ∈ ops → c2 ≠ "") →
      (st.modelStep3.isSome = true → st.modelStep2.isSome = true) →
      (runOps fsOk st ops).modelStep3.isSome = true →
      (runOps fsOk st ops).modelStep2.isSome = true by
    exact h ops initKWE hops (by simp [initKWE]) h3
  intro ops
  induction ops with
  | nil => intro st _ hst h3; exact hst h3
  | cons op rest ih =>
    intro st hall hst h3
    have hop : ∀ c2 c3, op = KWEOp.train c2 c3 → c2 ≠ "" := by
      intro c2 c3 he
      exact hall c2 c3 (by rw [← he]; exact List.mem_cons_self op rest)
    have hrest : ∀ c2 c3, KWEOp.train c2 c3 ∈ rest → c2 ≠ "" := by
      intro c2 c3 hm
      exact hall c2 c3 (List.mem_cons_of_mem op hm)
    exact ih (runOp fsOk st op) hrest (runOp_preserves_stage_inv fsOk st op hop hst) h3

/-- Witness for C2 (amended), at a concrete call sequence with a
non-empty corpus_step2. -/
theorem stage3_implies_stage2_witness :
    (runOps (fun _ => true) initKWE [KWEOp.train "a.txt" "b.txt"]).modelStep2.isSome = true :=
  stage3_implies_stage2_of_nonempty_corpus2 (fun _ => true) [KWEOp.train "a.txt" "b.txt"]
    (by
      intro c2 c3 hm
      simp only [List.mem_singleton, KWEOp.train.injEq] at hm
      rw [hm.1]
      decide)
    (by decide)

/-! ## Theorems: deduplication -/

/-- Helper: every element of a successful dedupLoop result either was in
the accepted list already or is a kept candidate from the input list. -/
theorem dedupLoop_mem_of_some :
    ∀ (l acc res : List String) (t : ℚ), dedupLoop t acc l = some res →
      ∀ x ∈ res, x ∈ acc ∨ (x ∈ l ∧ keepCandidate x = true) := by
  intro l
  induction l with
  | nil =>
    intro acc res t h x hx
    simp only [dedupLoop, Option.some.injEq] at h
    subst h
    exact Or.inl hx
  | cons c cs ih =>
    intro acc res t h x hx
    simp only [dedupLoop] at h
    split at h
    · rcases ih acc res t h x hx with hm | ⟨hm, hk⟩
      · exact Or.inl hm
      · exact Or.inr ⟨List.mem_cons_of_mem c hm, hk⟩
    · rename_i hskipF
      split at h
      · cases h
      · rename_i t0 rest heq
        split at h
        · rcases ih acc res t h x hx with hm | ⟨hm, hk⟩
          · exact Or.inl hm
          · exact Or.inr ⟨List.mem_cons_of_mem c hm, hk⟩
        · rename_i hcountF
          split at h
          · rcases ih acc res t h x hx with hm | ⟨hm, hk⟩
            · exact Or.inl hm
            · exact Or.inr ⟨List.mem_cons_of_mem c hm, hk⟩
          · rename_i hcapsF
            split at h
            · rcases ih (acc ++ [c]) res t h x hx with hm | ⟨hm, hk⟩
              · rcases List.mem_append.mp hm with hm2 | hm2
                · exact Or.inl hm2
                · have hxc : x = c := by simpa using hm2
                  subst hxc
                  refine Or.inr ⟨List.mem_cons_self x cs, ?_⟩
                  rw [heq] at hskipF hcountF
                  simp only [keepCandidate, heq]
                  rw [if_neg hskipF, if_neg hcountF, if_neg hcapsF]
              · exact Or.inr ⟨List.mem_cons_of_mem c hm, hk⟩
            · rcases ih acc res t h x hx with hm | ⟨hm, hk⟩
              · exact Or.inl hm
              · exact Or.inr ⟨List.mem_cons_of_mem c hm, hk⟩

/-- Helper for C3: a candidate with at least two whitespace tokens whose
first token is lowercase and whose second is all-uppercase is dropped by
the linguistic filter. -/
theorem keep_false_of_caps {c t0 t1 : String} {rest : List String}
    (hsplit : pySplit c = t0 :: t1 :: rest)
    (hl : pyIsLower t0 = true) (hu : pyIsUpper t1 = true) :
    keepCandidate c = false := by
  simp only [keepCandidate, hsplit]
  split
  · rfl
  · split
    · rfl
    · simp [hl, hu]

/-- C3 counterexample: the candidate "data Science" has two tokens, the
first lowercase and the second starting with an uppercase letter, yet
KWE._deduplicate returns it: the source tests tokens[1].isupper(), which
is False for "Science" (not all-caps), so the rejection never fires. -/
theorem capitalized_second_token_not_rejected :
    deduplicate [("data Science", 0)] (mkRat 17 20) = some ["data Science"] := by decide

/-- C3 (amended): the rejection holds with the second token all-uppercase
(Python str.isupper) in place of the claimed starts-with-uppercase: a
candidate whose first token is lowercase and whose second token is
all-uppercase never appears in a successful _deduplicate result. -/
theorem all_upper_second_token_rejected
    (kws : List (String × ℚ)) (t : ℚ) (res : List String)
    (c t0 t1 : String) (rest : List String)
    (hsome : deduplicate kws t = some res)
    (hsplit : pySplit c = t0 :: t1 :: rest)
    (hl : pyIsLower t0 = true) (hu : pyIsUpper t1 = true) :
    c ∉ res := by
  intro hc
  rcases dedupLoop_mem_of_some _ _ _ _ hsome c hc with hm | ⟨_, hkeep⟩
  · cases hm
  · rw [keep_false_of_caps hsplit hl hu] at hkeep
    cases hkeep

/-- Witness for C3 (amended): the all-uppercase candidate "data SCIENCE"
is rejected on a concrete run. -/
theorem all_upper_second_token_rejected_witness :
    deduplicate [("data SCIENCE", 0), ("good word", 0)] (mkRat 17 20) = some ["good word"] ∧
      "data SCIENCE" ∉ ["good word"] :=
  ⟨by decide,
   all_upper_second_token_rejected [("data SCIENCE", 0), ("good word", 0)] (mkRat 17 20)
     ["good word"] "data SCIENCE" "data" "SCIENCE" [] (by decide) (by decide) (by decide)
     (by decide)⟩

/-! ## Theorems: top-N selection -/

/-- The descending (weight, index) key comparison is total. -/
theorem keyGe_total (x y : Nat × ℚ) : keyGe x y = true ∨ keyGe y x = true := by
  simp only [keyGe, Bool.or_eq_true, Bool.and_eq_true, decide_eq_true_eq, beq_iff_eq]
  rcases lt_trichotomy x.2 y.2 with h | h | h
  · exact Or.inr (Or.inl h)
  · rcases Nat.le_total y.1 x.1 with h2 | h2
    · exact Or.inl (Or.inr ⟨h.symm, h2⟩)
    · exact Or.inr (Or.inr ⟨h, h2⟩)
  · exact Or.inl (Or.inl h)

/-- The descending (weight, index) key comparison is transitive. -/
theorem keyGe_trans {x y z : Nat × ℚ} (h1 : keyGe x y = true) (h2 : keyGe y z = true) :
    keyGe x z = true := by
  simp only [keyGe, Bool.or_eq_true, Bool.and_eq_true, decide_eq_true_eq, beq_iff_eq] at *
  rcases h1 with h1 | ⟨h1e, h1n⟩
  · rcases h2 with h2 | ⟨h2e, _⟩
    · exact Or.inl (lt_trans h2 h1)
    · exact Or.inl (h2e ▸ h1)
  · rcases h2 with h2 | ⟨h2e, h2n⟩
    · exact Or.inl (h1e ▸ h2)
    · exact Or.inr ⟨h2e.trans h1e, Nat.le_trans h2n h1n⟩

/-- Stable descending insertion yields a permutation of the cons. -/
theorem insertDesc_perm (x : Nat × ℚ) : ∀ l, (insertDesc x l).Perm (x :: l)
  | [] => List.Perm.refl _
  | y :: ys => by
    simp only [insertDesc]
    split
    · exact ((insertDesc_perm x ys).cons y).trans (List.Perm.swap x y ys)
    · exact List.Perm.refl _

/-- Stable descending insertion preserves descending sortedness. -/
theorem insertDesc_pairwise (x : Nat × ℚ) :
    ∀ l, l.Pairwise (fun a b => keyGe a b = true) →
      (insertDesc x l).Pairwise (fun a b => keyGe a b = true)
  | [] => by simp [insertDesc]
  | y :: ys => by
    intro hp
    rcases List.pairwise_cons.mp hp with ⟨hy, hys⟩
    simp only [insertDesc]
    split
    · rename_i hge
      refine List.pairwise_cons.mpr ⟨?_, insertDesc_pairwise x ys hys⟩
      intro b hb
      have hb2 : b ∈ x :: ys := (insertDesc_perm x ys).mem_iff.mp hb
      rcases List.mem_cons.mp hb2 with rfl | hbys
      · exact hge
      · exact hy b hbys
    · rename_i hge
      have hxy : keyGe x y = true := by
        rcases keyGe_total x y with h | h
        · exact h
        · exact absurd h hge
      refine List.pairwise_cons.mpr ⟨?_, hp⟩
      intro b hb
      rcases List.mem_cons.mp hb with rfl | hbys
      · exact hxy
      · exact keyGe_trans hxy (hy b hbys)

/-- The descending sort of the coo row is a permutation of it. -/
theorem sortDesc_perm_aux :
    ∀ (l acc : List (Nat × ℚ)),
      (l.foldl (fun a x => insertDesc x a) acc).Perm (acc ++ l) := by
  intro l
  induction l with
  | nil => intro acc; simp
  | cons x xs ih =>
    intro acc
    simp only [List.foldl_cons]
    refine (ih (insertDesc x acc)).trans ?_
    refine (((insertDesc_perm x acc).append_right xs).trans ?_)
    exact List.perm_middle.symm

/-- sortDesc produces a permutation of its input. -/
theorem sortDesc_perm (l : List (Nat × ℚ)) : (sortDesc l).Perm l := by
  simpa using sortDesc_perm_aux l []

/-- sortDesc produces a list sorted descending in the (weight, index)
key. -/
theorem sortDesc_pairwise (l : List (Nat × ℚ)) :
    (sortDesc l).Pairwise (fun a b => keyGe a b = true) := by
  suffices h : ∀ (l acc : List (Nat × ℚ)), acc.Pairwise (fun a b => keyGe a b = true) →
      (l.foldl (fun a x => insertDesc x a) acc).Pairwise (fun a b => keyGe a b = true) by
    exact h l [] (List.Pairwise.nil)
  intro l
  induction l with
  | nil => intro acc h; exact h
  | cons x xs ih =>
    intro acc h
    simp only [List.foldl_cons]
    exact ih (insertDesc x acc) (insertDesc_pairwise x acc h)

/-- C7: top-N selection sorts the sparse row entries by weight
descending with descending vocabulary index as tie-break, then returns
the first n entries mapped through the feature names; in particular, on
the row with indices 0 and 1 tied at weight 1/2 and index 2 at
weight 9/10, with n = 2, index 1 wins the tie-break against index 0. -/
theorem topn_sorted_desc_with_index_tiebreak :
    (∀ (entries : List (Nat × ℚ)) (featureNames : List String) (n : Nat),
      ∃ l : List (Nat × ℚ), entries.Perm l ∧ l.Pairwise (fun a b => keyGe a b = true) ∧
        extractTopn entries featureNames n =
          (l.take n).map fun e => (featureNames.getD e.1 "", e.2)) ∧
    extractTopn [(0, mkRat 1 2), (1, mkRat 1 2), (2, mkRat 9 10)] ["t0", "t1", "t2"] 2 =
      [("t2", mkRat 9 10), ("t1", mkRat 1 2)] := by
  constructor
  · intro entries featureNames n
    exact ⟨sortDesc entries, (sortDesc_perm entries).symm, sortDesc_pairwise entries, rfl⟩
  · decide

/-! ## Theorems: filler stage -/

/-- C8: the filler filter keeps a candidate (with its original score)
when its term is verbatim in the reference set, and additionally emits
(term.lower(), score) when the lower-cased term is in the reference set;
on the concrete reference file containing both "Data Science" and "data
science", the raw candidate "Data Science" yields both pairs. -/
theorem filler_union_keeps_both_cases :
    (∀ (kws : List (String × ℚ)) (corpus : List String) (k : String × ℚ),
      k ∈ kws → corpus.contains k.1 = true → k ∈ fillerUnion kws corpus) ∧
    (∀ (kws : List (String × ℚ)) (corpus : List String) (k : String × ℚ),
      k ∈ kws → corpus.contains (pyLower k.1) = true →
        (pyLower k.1, k.2) ∈ fillerUnion kws corpus) ∧
    extractFillerKws [("Data Science", mkRat 7 10)] "Data Science\ndata science\n" =
      [("Data Science", mkRat 7 10), ("data science", mkRat 7 10)] := by
  refine ⟨?_, ?_, by decide⟩
  · intro kws corpus k hk hc
    exact List.mem_append_left _ (List.mem_filter.mpr ⟨hk, hc⟩)
  · intro kws corpus k hk hc
    refine List.mem_append_right _ ?_
    exact List.mem_map.mpr ⟨k, List.mem_filter.mpr ⟨hk, hc⟩, rfl⟩

/-- Witness for C8, discharging both membership hypotheses at the
concrete candidate and reference set of the claim. -/
theorem filler_union_keeps_both_cases_witness :
    ("Data Science", mkRat 7 10) ∈
      fillerUnion [("Data Science", mkRat 7 10)] ["Data Science", "data science"] ∧
    (pyLower "Data Science", mkRat 7 10) ∈
      fillerUnion [("Data Science", mkRat 7 10)] ["Data Science", "data science"] :=
  ⟨filler_union_keeps_both_cases.1 [("Data Science", mkRat 7 10)]
      ["Data Science", "data science"] ("Data Science", mkRat 7 10) (by decide) (by decide),
   filler_union_keeps_both_cases.2.1 [("Data Science", mkRat 7 10)]
      ["Data Science", "data science"] ("Data Science", mkRat 7 10) (by decide) (by decide)⟩

/-! ## Theorems: save_keywords -/

/-- Helper: the tuple-branch loop succeeds on a homogeneous tuple list,
one line per keyword. -/
theorem mapM_writeTup_ok (render : ℚ → String) :
    ∀ ks : List KWItem, (∀ k ∈ ks, ∃ t s, k = KWItem.tup t s) →
      ∃ lines, writeAll (writeTupLine render) ks = .ok lines ∧ lines.length = ks.length := by
  intro ks
  induction ks with
  | nil => exact fun _ => ⟨[], rfl, rfl⟩
  | cons k rest ih =>
    intro h
    obtain ⟨t, s, rfl⟩ := h k (List.mem_cons_self k rest)
    obtain ⟨lines, hl, hlen⟩ := ih fun k hk => h k (List.mem_cons_of_mem _ hk)
    refine ⟨(t ++ "\t" ++ render s ++ "\n") :: lines, ?_, by simp [hlen]⟩
    simp [writeAll, writeTupLine, hl]

/-- Helper: the string-branch loop succeeds on a homogeneous string
list, one line per keyword. -/
theorem mapM_writeStr_ok :
    ∀ ks : List KWItem, (∀ k ∈ ks, ∃ s, k = KWItem.str s) →
      ∃ lines, writeAll writeStrLine ks = .ok lines ∧ lines.length = ks.length := by
  intro ks
  induction ks with
  | nil => exact fun _ => ⟨[], rfl, rfl⟩
  | cons k rest ih =>
    intro h
    obtain ⟨s, rfl⟩ := h k (List.mem_cons_self k rest)
    obtain ⟨lines, hl, hlen⟩ := ih fun k hk => h k (List.mem_cons_of_mem _ hk)
    refine ⟨(s ++ "\n") :: lines, ?_, by simp [hlen]⟩
    simp [writeAll, writeStrLine, hl]

/-- C10: save_keywords raises IndexError on an empty keyword list (the
type dispatch subscripts keywords[0] before opening the file, so an
empty list is never persisted); a non-empty homogeneous list of (term,
score) tuples or of plain strings is written, one line per keyword; and
a first element of any other type raises TypeError. -/
theorem save_keywords_dispatch :
    (∀ render, saveKeywords render [] = .error .indexError) ∧
    (∀ (render : ℚ → String) (ks : List KWItem), ks ≠ [] →
      (∀ k ∈ ks, ∃ t s, k = KWItem.tup t s) →
      ∃ lines, saveKeywords render ks = .ok lines ∧ lines.length = ks.length) ∧
    (∀ (render : ℚ → String) (ks : List KWItem), ks ≠ [] →
      (∀ k ∈ ks, ∃ s, k = KWItem.str s) →
      ∃ lines, saveKeywords render ks = .ok lines ∧ lines.length = ks.length) ∧
    (∀ (render : ℚ → String) (rest : List KWItem),
      saveKeywords render (KWItem.other :: rest) = .error .typeError) := by
  refine ⟨fun _ => rfl, ?_, ?_, fun _ _ => rfl⟩
  · intro render ks hne h
    match ks, hne with
    | k :: rest, _ =>
      obtain ⟨t, s, rfl⟩ := h k (List.mem_cons_self k rest)
      exact mapM_writeTup_ok render (KWItem.tup t s :: rest) h
  · intro render ks hne h
    match ks, hne with
    | k :: rest, _ =>
      obtain ⟨s, rfl⟩ := h k (List.mem_cons_self k rest)
      exact mapM_writeStr_ok (KWItem.str s :: rest) h

/-- Witness for C10, running both write branches on concrete singleton
lists. -/
theorem save_keywords_dispatch_witness :
    (∃ lines, saveKeywords (fun _ => "0.5") [KWItem.tup "a b" (mkRat 1 2)] = .ok lines ∧
      lines.length = [KWItem.tup "a b" (mkRat 1 2)].length) ∧
    (∃ lines, saveKeywords (fun _ => "0.5") [KWItem.str "c d"] = .ok lines ∧
      lines.length = [KWItem.str "c d"].length) :=
  ⟨save_keywords_dispatch.2.1 (fun _ => "0.5") [KWItem.tup "a b" (mkRat 1 2)]
      (by decide) (by
        intro k hk
        simp only [List.mem_singleton] at hk
        exact ⟨"a b", mkRat 1 2, hk⟩),
   save_keywords_dispatch.2.2.1 (fun _ => "0.5") [KWItem.str "c d"]
      (by decide) (by
        intro k hk
        simp only [List.mem_singleton] at hk
        exact ⟨"c d", hk⟩)⟩

/-! ## Theorems: read_text failure recovery -/

/-- Inserting into a sorted list grows the length by one. -/
theorem insertAsc_length (x : String) : ∀ l, (insertAsc x l).length = l.length + 1
  | [] => rfl
  | y :: ys => by
    simp only [insertAsc]
    split
    · simp [insertAsc_length x ys]
    · simp

/-- Sorting preserves the length. -/
theorem pySorted_length (l : List String) : (pySorted l).length = l.length := by
  suffices h : ∀ (l acc : List String),
      (l.foldl (fun acc x => insertAsc x acc) acc).length = acc.length + l.length by
    simpa using h l []
  intro l
  induction l with
  | nil => intro acc; simp
  | cons x xs ih =>
    intro acc
    simp only [List.foldl_cons]
    rw [ih (insertAsc x acc), insertAsc_length]
    simp only [List.length_cons]
    omega

/-- Removing a present element shrinks the length by one. -/
theorem removeFirst_length (y : String) :
    ∀ l, y ∈ l → (removeFirst l y).length + 1 = l.length := by
  intro l
  induction l with
  | nil => intro h; cases h
  | cons x xs ih =>
    intro h
    simp only [removeFirst]
    split
    · simp
    · rename_i hne
      have hmem : y ∈ xs := by
        rcases List.mem_cons.mp h with rfl | hm
        · exact absurd rfl hne
        · exact hm
      simp only [List.length_cons, ← ih hmem]

/-- Python list.insert grows the length by one. -/
theorem pyInsert_length (y : String) : ∀ (n : Nat) (l : List String),
    (pyInsert n y l).length = l.length + 1 := by
  intro n l
  induction l generalizing n with
  | nil => cases n <;> rfl
  | cons x xs ih =>
    cases n with
    | zero => rfl
    | succ m => simp only [pyInsert, List.length_cons, ih m]

/-- The mutating reorder loop preserves the length of the file list. -/
theorem sortChaptersGo_length :
    ∀ (fuel : Nat) (files : List String) (i c : Nat),
      (sortChaptersGo fuel files i c).length = files.length := by
  intro fuel
  induction fuel with
  | zero => intro files i c; rfl
  | succ n ih =>
    intro files i c
    cases hget : files[i]? with
    | none => simp only [sortChaptersGo, hget]
    | some f =>
      have hmem : f ∈ files := List.getElem?_mem hget
      have hrem := removeFirst_length f files hmem
      simp only [sortChaptersGo, hget]
      split
      · rw [ih, pyInsert_length]
        omega
      · split
        · rw [ih]
          simp only [List.length_append, List.length_singleton]
          omega
        · exact ih files (i + 1) c

/-- _sort_chapters preserves the length of the file list. -/
theorem sortChapters_length (files : List String) :
    (sortChapters files).length = files.length := by
  simp only [sortChapters, sortChaptersGo_length, pySorted_length]

/-- A string of nonzero length is not empty. -/
theorem string_ne_empty_of_length_pos {s : String} (h : 0 < s.length) : s ≠ "" := by
  intro he
  subst he
  cases h

/-- One step of the directory concatenation loop adds at least the
two-character blank-line separator. -/
theorem readDirFold_step_length (fs : FileSys) (path : String)
    (st : String × List LogMsg) (file : String) :
    st.1.length + 2 ≤ ((readDirFold fs path st file).1).length := by
  unfold readDirFold
  have h2 : ("\n\n" : String).length = 2 := rfl
  cases fs.readFile (path ++ "/" ++ file) with
  | some txt =>
    simp only [preprocess, String.length_append, h2]
    omega
  | none =>
    simp only [preprocess, String.length_append, h2]
    have h0 : ("" : String).length = 0 := rfl
    omega

/-- The directory concatenation loop never shrinks the accumulated
text. -/
theorem dirFold_mono :
    ∀ (files : List String) (fs : FileSys) (path : String) (st : String × List LogMsg),
      st.1.length ≤ ((files.foldl (readDirFold fs path) st).1).length := by
  intro files
  induction files with
  | nil => intro fs path st; exact Nat.le_refl _
  | cons file rest ih =>
    intro fs path st
    simp only [List.foldl_cons]
    have h1 := readDirFold_step_length fs path st file
    have h2 := ih fs path (readDirFold fs path st file)
    omega

/-- On a non-empty file list the directory concatenation is non-empty
(each file contributes its blank-line separator even when unreadable). -/
theorem dirFold_ne_empty (fs : FileSys) (path : String) (logs : List LogMsg)
    (files : List String) (hne : files ≠ []) :
    ((files.foldl (readDirFold fs path) ("", logs)).1) ≠ "" := by
  match files, hne with
  | file :: rest, _ =>
    apply string_ne_empty_of_length_pos
    simp only [List.foldl_cons]
    have h1 := readDirFold_step_length fs path ("", logs) file
    have h2 := dirFold_mono rest fs path (readDirFold fs path ("", logs) file)
    have h0 : ("" : String).length = 0 := rfl
    omega

/-- A non-empty list has isEmpty = false. -/
theorem isEmpty_false_of_ne_nil {α : Type} {l : List α} (h : l ≠ []) : l.isEmpty = false := by
  cases l with
  | nil => exact absurd rfl h
  | cons a as => rfl

/-- The directory concatenation loop only appends to the log. -/
theorem dirFold_log_mono :
    ∀ (files : List String) (fs : FileSys) (path : String) (st : String × List LogMsg)
      (msg : LogMsg), msg ∈ st.2 → msg ∈ ((files.foldl (readDirFold fs path) st).2) := by
  intro files
  induction files with
  | nil => intro fs path st msg h; exact h
  | cons file rest ih =>
    intro fs path st msg h
    simp only [List.foldl_cons]
    refine ih fs path (readDirFold fs path st file) msg ?_
    unfold readDirFold
    cases fs.readFile (path ++ "/" ++ file) with
    | some txt => exact h
    | none => exact List.mem_append_left _ h

/-- Every unreadable file processed by the directory concatenation loop
leaves its diagnostic in the log. -/
theorem dirFold_log_unreadable :
    ∀ (files : List String) (fs : FileSys) (path : String) (st : String × List LogMsg)
      (file : String), file ∈ files → fs.readFile (path ++ "/" ++ file) = none →
      LogMsg.exceptionForFile path file ∈ ((files.foldl (readDirFold fs path) st).2) := by
  intro files
  induction files with
  | nil => intro fs path st file h; cases h
  | cons f rest ih =>
    intro fs path st file hmem hnone
    simp only [List.foldl_cons]
    rcases List.mem_cons.mp hmem with rfl | hmem2
    · refine dirFold_log_mono rest fs path (readDirFold fs path st file) _ ?_
      unfold readDirFold
      rw [hnone]
      exact List.mem_append_right _ (List.mem_singleton.mpr rfl)
    · exact ih fs path (readDirFold fs path st f) file hmem2 hnone

/-- C9 counterexample: when the unreadable document is the whole input
(a single file), read_text does recover locally (empty content, logged
diagnostic), but the extractor then raises RuntimeError on the empty
text, so the failure IS surfaced to the caller as a fatal error. -/
theorem unreadable_single_file_fatal :
    (readText ⟨fun _ => false, fun p => p == "doc.txt", fun _ => [], fun _ => none⟩
        "doc.txt").1 = .ok "" ∧
    LogMsg.exceptionForPath "doc.txt" ∈
      (readText ⟨fun _ => false, fun p => p == "doc.txt", fun _ => [], fun _ => none⟩
        "doc.txt").2 ∧
    (yakeExtractKeywords (fun _ => [])
        ⟨fun _ => false, fun p => p == "doc.txt", fun _ => [], fun _ => none⟩
        "doc.txt").1 = .error .runtimeError := by
  decide

/-- C9 (amended): unreadable files inside a directory are recovered
locally: empty content is substituted, the per-file diagnostic is left
in the log, and extraction proceeds on the concatenation, which is
never empty when the filtered listing is non-empty; but when the input
is a single unreadable file, the empty substitute makes
extract_keywords raise RuntimeError, which does surface to the
caller. -/
theorem unreadable_recovery_amended :
    (∀ (fs : FileSys) (yake : String → List (String × ℚ)) (path : String),
      fs.isDir path = true → (fs.listDir path).filter legalExt ≠ [] →
      (∃ txt, (readText fs path).1 = .ok txt ∧ txt ≠ "" ∧
        (yakeExtractKeywords yake fs path).1 = .ok (yake txt)) ∧
      (∀ file ∈ sortChapters ((fs.listDir path).filter legalExt),
        fs.readFile (path ++ "/" ++ file) = none →
        LogMsg.exceptionForFile path file ∈ (readText fs path).2)) ∧
    (∀ (fs : FileSys) (yake : String → List (String × ℚ)) (path : String),
      fs.isDir path = false → fs.isFile path = true → legalExt path = true →
      fs.readFile path = none →
      (readText fs path).1 = .ok "" ∧
      LogMsg.exceptionForPath path ∈ (readText fs path).2 ∧
      (yakeExtractKeywords yake fs path).1 = .error .runtimeError) := by
  constructor
  · intro fs yake path hdir hne
    have hfind : findTextFilesList (fs.listDir path) = ((fs.listDir path).filter legalExt, []) := by
      simp only [findTextFilesList, isEmpty_false_of_ne_nil hne]
      simp
    have hFne : sortChapters ((fs.listDir path).filter legalExt) ≠ [] := by
      intro h
      apply hne
      have hlen := sortChapters_length ((fs.listDir path).filter legalExt)
      rw [h] at hlen
      simp only [List.length_nil] at hlen
      exact List.length_eq_zero.mp hlen.symm
    have hS1 := dirFold_ne_empty fs path [] (sortChapters ((fs.listDir path).filter legalExt)) hFne
    have hrt : readText fs path =
        (.ok ((sortChapters ((fs.listDir path).filter legalExt)).foldl
            (readDirFold fs path) ("", [])).1,
         ((sortChapters ((fs.listDir path).filter legalExt)).foldl
            (readDirFold fs path) ("", [])).2) := by
      simp only [readText, hdir, if_true, hfind, isEmpty_false_of_ne_nil hFne,
        Bool.false_eq_true, if_false, if_neg hS1]
    refine ⟨⟨_, by rw [hrt], hS1, ?_⟩, ?_⟩
    · simp only [yakeExtractKeywords, hrt, if_neg hS1]
    · intro file hfile hnone
      rw [hrt]
      exact dirFold_log_unreadable (sortChapters ((fs.listDir path).filter legalExt)) fs path
        ("", []) file hfile hnone
  · intro fs yake path hdir hfile hlegal hread
    have hrt : readText fs path = (.ok "", [.exceptionForPath path, .noTextFoundFile path]) := by
      simp only [readText, hdir, Bool.false_eq_true, if_false, hfile, if_true,
        findTextFilesStr, hlegal, hread, preprocess]
    refine ⟨by rw [hrt], by rw [hrt]; simp, ?_⟩
    simp only [yakeExtractKeywords, hrt]
    simp

/-- File system used by the C9 witness: one directory "d" holding a
readable file a.txt, an unreadable file b.txt and a skipped x.pdf. -/
def fsDirW : FileSys :=
  ⟨fun p => p == "d", fun _ => false, fun _ => ["b.txt", "a.txt", "x.pdf"],
   fun p => if p == "d/a.txt" then some "hello" else none⟩

/-- File system used by the C9 witness: a single unreadable file. -/
def fsBadW : FileSys :=
  ⟨fun _ => false, fun p => p == "doc.txt", fun _ => [], fun _ => none⟩

/-- Witness for C9 (amended), at a concrete directory with one
unreadable file (whose logged diagnostic is extracted) and at a
concrete unreadable single file. -/
theorem unreadable_recovery_amended_witness :
    ((∃ txt, (readText fsDirW "d").1 = .ok txt ∧ txt ≠ "" ∧
      (yakeExtractKeywords (fun t => [(t, 0)]) fsDirW "d").1 = .ok [(txt, 0)]) ∧
      LogMsg.exceptionForFile "d" "b.txt" ∈ (readText fsDirW "d").2) ∧
    ((readText fsBadW "doc.txt").1 = .ok "" ∧
      LogMsg.exceptionForPath "doc.txt" ∈ (readText fsBadW "doc.txt").2 ∧
      (yakeExtractKeywords (fun t => [(t, 0)]) fsBadW "doc.txt").1 = .error .runtimeError) := by
  have h1 := unreadable_recovery_amended.1 fsDirW (fun t => [(t, 0)]) "d" (by decide) (by decide)
  exact ⟨⟨h1.1, h1.2 "b.txt" (by decide) (by decide)⟩,
    unreadable_recovery_amended.2 fsBadW (fun t => [(t, 0)]) "doc.txt" (by decide) (by decide)
      (by decide) (by decide)⟩

/-! ## Theorems: chapter reordering -/

/-- Removing the head value removes exactly the head. -/
theorem removeFirst_cons_self (x : String) (xs : List String) :
    removeFirst (x :: xs) x = xs := by
  simp [removeFirst]

/-- Removing a value not present in the prefix removes its first
occurrence after the prefix. -/
theorem removeFirst_append_of_not_mem (y : String) :
    ∀ (pre rest : List String), y ∉ pre →
      removeFirst (pre ++ y :: rest) y = pre ++ rest := by
  intro pre
  induction pre with
  | nil => intro rest _; simp [removeFirst_cons_self]
  | cons p ps ih =>
    intro rest hpre
    have hpy : p ≠ y := fun h => hpre (h ▸ List.mem_cons_self p ps)
    simp only [List.cons_append, removeFirst, if_neg hpy]
    exact congrArg (fun l => p :: l) (ih rest fun h => hpre (List.mem_cons_of_mem p h))

/-- Python list.insert at position 0 conses. -/
theorem pyInsert_zero (y : String) (l : List String) : pyInsert 0 y l = y :: l := by
  cases l <;> rfl

/-- The element at the boundary position of an append. -/
theorem getElem?_append_len (pre : List String) (x : String) (suf : List String) :
    (pre ++ x :: suf)[pre.length]? = some x := by
  rw [List.getElem?_append_right (Nat.le_refl pre.length)]
  simp

/-- One loop step on a non-matching file: only the index advances. -/
theorem sortChaptersGo_skip_step (fuel : Nat) (files : List String) (i c : Nat) (f : String)
    (hget : files[i]? = some f) (hni : isIntroFile f = false) (hnc : isConclFile f = false) :
    sortChaptersGo (fuel + 1) files i c = sortChaptersGo fuel files (i + 1) c := by
  simp only [sortChaptersGo, hget]
  rw [if_neg (by simp [hni]), if_neg (by simp [hnc])]

/-- One loop step on a conclusion-matching file: it is removed and
appended, and the index advances. -/
theorem sortChaptersGo_concl_step (fuel : Nat) (files : List String) (i c : Nat) (f : String)
    (hget : files[i]? = some f) (hni : isIntroFile f = false) (hc : isConclFile f = true) :
    sortChaptersGo (fuel + 1) files i c =
      sortChaptersGo fuel (removeFirst files f ++ [f]) (i + 1) c := by
  simp only [sortChaptersGo, hget]
  rw [if_neg (by simp [hni]), if_pos hc]

/-- One loop step on an introduction-matching file: it is removed and
reinserted at the intro cursor, and both counters advance. -/
theorem sortChaptersGo_intro_step (fuel : Nat) (files : List String) (i c : Nat) (f : String)
    (hget : files[i]? = some f) (hi : isIntroFile f = true) :
    sortChaptersGo (fuel + 1) files i c =
      sortChaptersGo fuel (pyInsert c f (removeFirst files f)) (i + 1) (c + 1) := by
  simp only [sortChaptersGo, hget]
  rw [if_pos hi]

/-- The reorder loop walking a stretch of non-matching files followed by
the conclusion file leaves the list unchanged: each non-matching file
triggers no branch, and the final conclusion file is removed from the
last position and appended there again. -/
theorem sortChaptersGo_mid (concl : String) (hci : isIntroFile concl = false)
    (hcc : isConclFile concl = true) :
    ∀ (rest pre : List String) (c : Nat),
      (∀ m ∈ rest, isIntroFile m = false ∧ isConclFile m = false) →
      concl ∉ pre → concl ∉ rest →
      sortChaptersGo (rest.length + 1) (pre ++ rest ++ [concl]) pre.length c =
        pre ++ rest ++ [concl] := by
  intro rest
  induction rest with
  | nil =>
    intro pre c _ hpre _
    simp only [List.append_nil, List.length_nil]
    rw [sortChaptersGo_concl_step 0 (pre ++ [concl]) pre.length c concl
      (getElem?_append_len pre concl []) hci hcc]
    rw [removeFirst_append_of_not_mem concl pre [] hpre]
    simp [sortChaptersGo]
  | cons m ms ih =>
    intro pre c hmids hpre hrest
    obtain ⟨hmi, hmc⟩ := hmids m (List.mem_cons_self m ms)
    have hcm2 : concl ≠ m := fun h => hrest (h ▸ List.mem_cons_self m ms)
    have hget : (pre ++ (m :: ms) ++ [concl])[pre.length]? = some m := by
      rw [List.append_assoc]
      exact getElem?_append_len pre m (ms ++ [concl])
    simp only [List.length_cons]
    rw [sortChaptersGo_skip_step (ms.length + 1) (pre ++ (m :: ms) ++ [concl]) pre.length c m
      hget hmi hmc]
    have hre : pre ++ (m :: ms) ++ [concl] = (pre ++ [m]) ++ ms ++ [concl] := by simp
    have hlen : pre.length + 1 = (pre ++ [m]).length := by simp
    rw [hre, hlen]
    exact ih (pre ++ [m]) c (fun x hx => hmids x (List.mem_cons_of_mem m hx))
      (by
        intro hx
        rcases List.mem_append.mp hx with hx | hx
        · exact hpre hx
        · exact hcm2 (List.mem_singleton.mp hx))
      (fun hx => hrest (List.mem_cons_of_mem m hx))

/-- C6 counterexample: the list has exactly one introduction-matching
and one conclusion-matching file, but after the reorder the introduction
file sits at index 2, not index 0: the loop mutates the list while
iterating, so moving "conclusion.tex" to the end shifts "intro.tex" into
the already-visited position and it is never examined. -/
theorem chapter_reorder_counterexample :
    (["a.tex", "b.tex", "conclusion.tex", "intro.tex"].filter isIntroFile).length = 1 ∧
    (["a.tex", "b.tex", "conclusion.tex", "intro.tex"].filter isConclFile).length = 1 ∧
    sortChapters ["a.tex", "b.tex", "conclusion.tex", "intro.tex"] =
      ["a.tex", "b.tex", "intro.tex", "conclusion.tex"] := by
  decide

/-- The reorder loop walking a stretch of non-matching files leaves the
list unchanged and only advances the index. -/
theorem sortChaptersGo_skipRun :
    ∀ (run pre rest : List String) (c fuel : Nat),
      (∀ x ∈ run, isIntroFile x = false ∧ isConclFile x = false) →
      sortChaptersGo (run.length + fuel) (pre ++ (run ++ rest)) pre.length c =
        sortChaptersGo fuel (pre ++ (run ++ rest)) (pre.length + run.length) c := by
  intro run
  induction run with
  | nil =>
    intro pre rest c fuel _
    simp
  | cons r0 run2 ih =>
    intro pre rest c fuel hrun
    obtain ⟨hri, hrc⟩ := hrun r0 (List.mem_cons_self r0 run2)
    have hget : (pre ++ ((r0 :: run2) ++ rest))[pre.length]? = some r0 :=
      getElem?_append_len pre r0 (run2 ++ rest)
    have hflen : (r0 :: run2).length + fuel = (run2.length + fuel) + 1 := by
      simp only [List.length_cons]
      omega
    rw [hflen, sortChaptersGo_skip_step (run2.length + fuel) _ pre.length c r0 hget hri hrc]
    have hre : pre ++ ((r0 :: run2) ++ rest) = (pre ++ [r0]) ++ (run2 ++ rest) := by simp
    have hidx : pre.length + 1 = (pre ++ [r0]).length := by simp
    rw [hre, hidx, ih (pre ++ [r0]) rest c fuel
      (fun x hx => hrun x (List.mem_cons_of_mem r0 hx))]
    have hidx2 : (pre ++ [r0]).length + run2.length = pre.length + (r0 :: run2).length := by
      simp only [List.length_append, List.length_cons, List.length_nil]
      omega
    rw [hidx2]

/-- The reorder loop walking non-matching files, then the conclusion
file, then more non-matching files, moves the conclusion file to the
end and changes nothing else (the file shifted into the visited slot by
the move is skipped, but it is non-matching, so no behavior is lost). -/
theorem sortChaptersGo_midConcl (concl : String) (hci : isIntroFile concl = false)
    (hcc : isConclFile concl = true) :
    ∀ (m : List String) (pre s : List String) (c : Nat),
      (∀ x ∈ m, isIntroFile x = false ∧ isConclFile x = false) →
      (∀ x ∈ s, isIntroFile x = false ∧ isConclFile x = false) →
      concl ∉ pre → concl ∉ m → concl ∉ s →
      sortChaptersGo (m.length + s.length + 1) (pre ++ (m ++ (concl :: s))) pre.length c =
        pre ++ (m ++ (s ++ [concl])) := by
  intro m
  induction m with
  | nil =>
    intro pre s c _ hs hcp _ hcs2
    simp only [List.length_nil, List.nil_append, Nat.zero_add]
    rw [sortChaptersGo_concl_step s.length (pre ++ (concl :: s)) pre.length c concl
      (getElem?_append_len pre concl s) hci hcc]
    rw [removeFirst_append_of_not_mem concl pre s hcp]
    cases s with
    | nil => simp [sortChaptersGo]
    | cons s0 s2 =>
      have hre : (pre ++ (s0 :: s2)) ++ [concl] = pre ++ [s0] ++ s2 ++ [concl] := by simp
      have hidx : pre.length + 1 = (pre ++ [s0]).length := by simp
      have hlen2 : (s0 :: s2).length = s2.length + 1 := by simp
      rw [hre, hidx, hlen2]
      rw [sortChaptersGo_mid concl hci hcc s2 (pre ++ [s0]) c
        (fun x hx => hs x (List.mem_cons_of_mem s0 hx))
        (by
          intro hx
          rcases List.mem_append.mp hx with hx | hx
          · exact hcp hx
          · exact hcs2 ((List.mem_singleton.mp hx) ▸ List.mem_cons_self s0 s2))
        (fun hx => hcs2 (List.mem_cons_of_mem s0 hx))]
      simp
  | cons m0 m2 ih =>
    intro pre s c hm hs hcp hcm hcs2
    obtain ⟨hmi, hmc⟩ := hm m0 (List.mem_cons_self m0 m2)
    have hget : (pre ++ ((m0 :: m2) ++ (concl :: s)))[pre.length]? = some m0 :=
      getElem?_append_len pre m0 (m2 ++ (concl :: s))
    have hflen : (m0 :: m2).length + s.length + 1 = (m2.length + s.length + 1) + 1 := by
      simp only [List.length_cons]
      omega
    rw [hflen, sortChaptersGo_skip_step (m2.length + s.length + 1) _ pre.length c m0
      hget hmi hmc]
    have hre : pre ++ ((m0 :: m2) ++ (concl :: s)) = (pre ++ [m0]) ++ (m2 ++ (concl :: s)) := by
      simp
    have hidx : pre.length + 1 = (pre ++ [m0]).length := by simp
    rw [hre, hidx, ih (pre ++ [m0]) s c
      (fun x hx => hm x (List.mem_cons_of_mem m0 hx)) hs
      (by
        intro hx
        rcases List.mem_append.mp hx with hx | hx
        · exact hcp hx
        · exact hcm ((List.mem_singleton.mp hx) ▸ List.mem_cons_self m0 m2))
      (fun hx => hcm (List.mem_cons_of_mem m0 hx)) hcs2]
    simp

/-- C6 (amended): for every file list with exactly one
introduction-matching and one conclusion-matching file, the reorder
places the introduction at index 0 and the conclusion at the last index
(with the other files keeping their sorted order), in every sorted
configuration EXCEPT the one the counterexample exhibits: the
conclusion file immediately before the introduction file with at least
one file before them.  Covered shapes: the introduction anywhere before
the conclusion, and the conclusion before the introduction with either
a file between them or nothing before the conclusion. -/
theorem chapter_reorder_unless_adjacent
    (files p m s : List String) (fIntro fConcl : String)
    (hi : isIntroFile fIntro = true)
    (hcn : isIntroFile fConcl = false) (hcc : isConclFile fConcl = true)
    (hrest : ∀ x ∈ p ++ (m ++ s), isIntroFile x = false ∧ isConclFile x = false)
    (hshape : pySorted files = p ++ (fIntro :: (m ++ (fConcl :: s))) ∨
      (pySorted files = p ++ (fConcl :: (m ++ (fIntro :: s))) ∧ (m ≠ [] ∨ p = []))) :
    sortChapters files = fIntro :: (p ++ (m ++ (s ++ [fConcl]))) := by
  have hp : ∀ x ∈ p, isIntroFile x = false ∧ isConclFile x = false :=
    fun x hx => hrest x (List.mem_append_left _ hx)
  have hm : ∀ x ∈ m, isIntroFile x = false ∧ isConclFile x = false :=
    fun x hx => hrest x (List.mem_append_right _ (List.mem_append_left _ hx))
  have hs : ∀ x ∈ s, isIntroFile x = false ∧ isConclFile x = false :=
    fun x hx => hrest x (List.mem_append_right _ (List.mem_append_right _ hx))
  have hIp : fIntro ∉ p := fun h => by
    have h2 := (hp fIntro h).1
    rw [hi] at h2
    cases h2
  have hIm : fIntro ∉ m := fun h => by
    have h2 := (hm fIntro h).1
    rw [hi] at h2
    cases h2
  have hCp : fConcl ∉ p := fun h => by
    have h2 := (hp fConcl h).2
    rw [hcc] at h2
    cases h2
  have hCm : fConcl ∉ m := fun h => by
    have h2 := (hm fConcl h).2
    rw [hcc] at h2
    cases h2
  have hCs : fConcl ∉ s := fun h => by
    have h2 := (hs fConcl h).2
    rw [hcc] at h2
    cases h2
  have hCI : fConcl ≠ fIntro := fun h => by
    rw [h, hi] at hcn
    cases hcn
  rcases hshape with hA | ⟨hB, hBC⟩
  · -- introduction before conclusion
    simp only [sortChapters, hA]
    have hlen : (p ++ (fIntro :: (m ++ (fConcl :: s)))).length =
        p.length + (m.length + s.length + 2) := by
      simp only [List.length_append, List.length_cons]
      omega
    rw [hlen]
    have hskip := sortChaptersGo_skipRun p [] (fIntro :: (m ++ (fConcl :: s))) 0
      (m.length + s.length + 2) hp
    simp only [List.nil_append, List.length_nil, Nat.zero_add] at hskip
    rw [hskip]
    have hget : (p ++ (fIntro :: (m ++ (fConcl :: s))))[p.length]? = some fIntro :=
      getElem?_append_len p fIntro (m ++ (fConcl :: s))
    have hf2 : m.length + s.length + 2 = (m.length + s.length + 1) + 1 := rfl
    rw [hf2, sortChaptersGo_intro_step (m.length + s.length + 1) _ p.length 0 fIntro hget hi]
    rw [removeFirst_append_of_not_mem fIntro p (m ++ (fConcl :: s)) hIp, pyInsert_zero]
    have hre : fIntro :: (p ++ (m ++ (fConcl :: s))) = (fIntro :: p) ++ (m ++ (fConcl :: s)) :=
      rfl
    have hidx : p.length + 1 = (fIntro :: p).length := by simp
    rw [hre, hidx]
    rw [sortChaptersGo_midConcl fConcl hcn hcc m (fIntro :: p) s (0 + 1) hm hs
      (by
        intro hx
        rcases List.mem_cons.mp hx with hx | hx
        · exact hCI hx
        · exact hCp hx)
      hCm hCs]
    rfl
  · -- conclusion before introduction, not immediately adjacent away from the head
    cases m with
    | nil =>
      have hp0 : p = [] := by
        rcases hBC with hne | hp0
        · exact absurd rfl hne
        · exact hp0
      subst hp0
      simp only [List.nil_append] at hB
      simp only [sortChapters, hB, List.nil_append]
      have hlen : (fConcl :: (fIntro :: s)).length = (s.length + 1) + 1 := by
        simp only [List.length_cons]
      rw [hlen]
      have hget : (fConcl :: (fIntro :: s))[0]? = some fConcl := by simp
      rw [sortChaptersGo_concl_step (s.length + 1) (fConcl :: (fIntro :: s)) 0 0 fConcl
        hget hcn hcc]
      rw [removeFirst_cons_self]
      have hre : (fIntro :: s) ++ [fConcl] = [fIntro] ++ s ++ [fConcl] := by simp
      have h1 : (0 + 1 : Nat) = ([fIntro] : List String).length := rfl
      rw [hre, h1]
      rw [sortChaptersGo_mid fConcl hcn hcc s [fIntro] 0 hs
        (by simpa using hCI) hCs]
      rfl
    | cons m0 m2 =>
      have hm0 := hm m0 (List.mem_cons_self m0 m2)
      have hm2 : ∀ x ∈ m2, isIntroFile x = false ∧ isConclFile x = false :=
        fun x hx => hm x (List.mem_cons_of_mem m0 hx)
      simp only [sortChapters, hB]
      have hlen : (p ++ (fConcl :: ((m0 :: m2) ++ (fIntro :: s)))).length =
          p.length + ((m0 :: m2).length + s.length + 2) := by
        simp only [List.length_append, List.length_cons]
        omega
      rw [hlen]
      have hskip := sortChaptersGo_skipRun p [] (fConcl :: ((m0 :: m2) ++ (fIntro :: s))) 0
        ((m0 :: m2).length + s.length + 2) hp
      simp only [List.nil_append, List.length_nil, Nat.zero_add] at hskip
      rw [hskip]
      have hget : (p ++ (fConcl :: ((m0 :: m2) ++ (fIntro :: s))))[p.length]? = some fConcl :=
        getElem?_append_len p fConcl ((m0 :: m2) ++ (fIntro :: s))
      have hf2 : (m0 :: m2).length + s.length + 2 = ((m0 :: m2).length + s.length + 1) + 1 :=
        rfl
      rw [hf2, sortChaptersGo_concl_step ((m0 :: m2).length + s.length + 1) _ p.length 0
        fConcl hget hcn hcc]
      rw [removeFirst_append_of_not_mem fConcl p ((m0 :: m2) ++ (fIntro :: s)) hCp]
      -- walk over the stretch m2 (m0 was shifted into the visited slot and is skipped)
      have hre : (p ++ ((m0 :: m2) ++ (fIntro :: s))) ++ [fConcl] =
          (p ++ [m0]) ++ (m2 ++ (fIntro :: (s ++ [fConcl]))) := by simp
      have hidx : p.length + 1 = (p ++ [m0]).length := by simp
      have hf3 : (m0 :: m2).length + s.length + 1 = m2.length + (s.length + 2) := by
        simp only [List.length_cons]
        omega
      rw [hre, hidx, hf3]
      rw [sortChaptersGo_skipRun m2 (p ++ [m0]) (fIntro :: (s ++ [fConcl])) 0
        (s.length + 2) hm2]
      -- the introduction step
      have hre2 : (p ++ [m0]) ++ (m2 ++ (fIntro :: (s ++ [fConcl]))) =
          ((p ++ [m0]) ++ m2) ++ (fIntro :: (s ++ [fConcl])) := by simp
      have hidx2 : (p ++ [m0]).length + m2.length = ((p ++ [m0]) ++ m2).length := by
        simp only [List.length_append, List.length_cons, List.length_nil]
      rw [hre2, hidx2]
      have hget2 : (((p ++ [m0]) ++ m2) ++ (fIntro :: (s ++ [fConcl])))[((p ++ [m0]) ++
          m2).length]? = some fIntro :=
        getElem?_append_len ((p ++ [m0]) ++ m2) fIntro (s ++ [fConcl])
      have hf4 : s.length + 2 = (s.length + 1) + 1 := rfl
      rw [hf4, sortChaptersGo_intro_step (s.length + 1) _ ((p ++ [m0]) ++ m2).length 0
        fIntro hget2 hi]
      have hInotin : fIntro ∉ (p ++ [m0]) ++ m2 := by
        intro hx
        rcases List.mem_append.mp hx with hx | hx
        · rcases List.mem_append.mp hx with hx | hx
          · exact hIp hx
          · exact hIm ((List.mem_singleton.mp hx) ▸ List.mem_cons_self m0 m2)
        · exact hIm (List.mem_cons_of_mem m0 hx)
      rw [removeFirst_append_of_not_mem fIntro ((p ++ [m0]) ++ m2) (s ++ [fConcl]) hInotin,
        pyInsert_zero]
      -- the final stretch s then the conclusion file at the end
      have hre3 : fIntro :: (((p ++ [m0]) ++ m2) ++ (s ++ [fConcl])) =
          (fIntro :: ((p ++ [m0]) ++ m2)) ++ s ++ [fConcl] := by simp
      have hidx3 : ((p ++ [m0]) ++ m2).length + 1 =
          (fIntro :: ((p ++ [m0]) ++ m2)).length := by simp
      rw [hre3, hidx3]
      rw [sortChaptersGo_mid fConcl hcn hcc s (fIntro :: ((p ++ [m0]) ++ m2)) (0 + 1) hs
        (by
          intro hx
          rcases List.mem_cons.mp hx with hx | hx
          · exact hCI hx
          · rcases List.mem_append.mp hx with hx | hx
            · rcases List.mem_append.mp hx with hx | hx
              · exact hCp hx
              · exact hCm ((List.mem_singleton.mp hx) ▸ List.mem_cons_self m0 m2)
            · exact hCm (List.mem_cons_of_mem m0 hx))
        hCs]
      simp

/-- Witness for C6 (amended), exercising both covered shapes: the
specification example (introduction sorts first, shape with the
introduction before the conclusion) and a list where the conclusion
sorts first with a plain file between it and the introduction. -/
theorem chapter_reorder_unless_adjacent_witness :
    sortChapters ["b.tex", "a.tex", "conclusion.tex", "1intro.tex"] =
      "1intro.tex" :: ([] ++ (["a.tex", "b.tex"] ++ ([] ++ ["conclusion.tex"]))) ∧
    sortChapters ["conclusion.tex", "m.tex", "xintro.tex"] =
      "xintro.tex" :: ([] ++ (["m.tex"] ++ ([] ++ ["conclusion.tex"]))) :=
  ⟨chapter_reorder_unless_adjacent ["b.tex", "a.tex", "conclusion.tex", "1intro.tex"]
      [] ["a.tex", "b.tex"] [] "1intro.tex" "conclusion.tex" (by decide) (by decide)
      (by decide) (by decide) (Or.inl (by decide)),
   chapter_reorder_unless_adjacent ["conclusion.tex", "m.tex", "xintro.tex"]
      [] ["m.tex"] [] "xintro.tex" "conclusion.tex" (by decide) (by decide)
      (by decide) (by decide) (Or.inr ⟨by decide, Or.inl (by decide)⟩)⟩

/-! ## Theorems: deduplication decomposition and idempotence -/

/-- A kept candidate has a non-empty token list. -/
theorem split_ne_nil_of_keep {c : String} (h : keepCandidate c = true) : pySplit c ≠ [] := by
  intro hn
  simp [keepCandidate, hn] at h

/-- A successful dedupLoop run means no candidate had an empty token
list (such a candidate would have raised IndexError). -/
theorem dedupLoop_some_ne (t : ℚ) :
    ∀ (l acc res : List String), dedupLoop t acc l = some res →
      ∀ c ∈ l, pySplit c ≠ [] := by
  intro l
  induction l with
  | nil => intro acc res _ c hc; cases hc
  | cons c cs ih =>
    intro acc res h x hx
    simp only [dedupLoop] at h
    rcases List.mem_cons.mp hx with rfl | hxs
    · intro hn
      rw [hn] at h
      simp at h
    · split at h
      · exact ih acc res h x hxs
      · split at h
        · cases h
        · split at h
          · exact ih acc res h x hxs
          · split at h
            · exact ih acc res h x hxs
            · split at h
              · exact ih (acc ++ [c]) res h x hxs
              · exact ih acc res h x hxs

/-- When no candidate has an empty token list, the dedup loop succeeds
and equals the similarity-collapse loop run on the filter-surviving
candidates. -/
theorem dedupLoop_eq_greedy (t : ℚ) :
    ∀ (l acc : List String), (∀ c ∈ l, pySplit c ≠ []) →
      dedupLoop t acc l = some (dedupGreedy t acc (l.filter keepCandidate)) := by
  intro l
  induction l with
  | nil => intro acc _; rfl
  | cons c cs ih =>
    intro acc h
    have hc := h c (List.mem_cons_self c cs)
    have hcs : ∀ x ∈ cs, pySplit x ≠ [] := fun x hx => h x (List.mem_cons_of_mem c hx)
    simp only [dedupLoop, List.filter_cons]
    by_cases h1 : (!(pySplit c).all pyIsAlpha && !(pySplit c).any hasHyphen) = true
    · rw [if_pos h1]
      have hk : keepCandidate c = false := by
        simp only [keepCandidate]
        rw [if_pos h1]
      rw [hk]
      simp only [Bool.false_eq_true, if_false]
      exact ih acc hcs
    · rw [if_neg h1]
      cases hsp : pySplit c with
      | nil => exact absurd hsp hc
      | cons t0 rest =>
        rw [hsp] at h1
        simp only [hsp]
        by_cases h2 : List.count t0 (t0 :: rest) > 2
        · rw [if_pos h2]
          have hk : keepCandidate c = false := by
            simp only [keepCandidate, hsp]
            rw [if_neg h1, if_pos h2]
          rw [hk]
          simp only [Bool.false_eq_true, if_false]
          exact ih acc hcs
        · rw [if_neg h2]
          by_cases h3 : (pyIsLower t0 && match rest.head? with
                         | some t1 => pyIsUpper t1
                         | none => false) = true
          · rw [if_pos h3]
            have hk : keepCandidate c = false := by
              simp only [keepCandidate, hsp]
              rw [if_neg h1, if_neg h2, if_pos h3]
            rw [hk]
            simp only [Bool.false_eq_true, if_false]
            exact ih acc hcs
          · rw [if_neg h3]
            have hk : keepCandidate c = true := by
              simp only [keepCandidate, hsp]
              rw [if_neg h1, if_neg h2, if_neg h3]
            rw [hk]
            simp only [if_true]
            by_cases h4 : (acc.all fun kw => !(t < distance c kw)) = true
            · rw [if_pos h4]
              simp only [dedupGreedy, h4, if_true]
              exact ih (acc ++ [c]) hcs
            · rw [if_neg h4]
              simp only [dedupGreedy]
              rw [if_neg h4]
              exact ih acc hcs

/-- A run of the similarity-collapse loop extends the accepted list by a
sublist of the input whose elements each passed the comparison against
the accepted list at their turn. -/
theorem dedupGreedy_accepts (t : ℚ) :
    ∀ (l acc : List String), ∃ ext, dedupGreedy t acc l = acc ++ ext ∧ ext.Sublist l ∧
      Accepts t acc ext := by
  intro l
  induction l with
  | nil => intro acc; exact ⟨[], by simp [dedupGreedy], List.Sublist.refl _, trivial⟩
  | cons c cs ih =>
    intro acc
    simp only [dedupGreedy]
    by_cases h : (acc.all fun kw => !(t < distance c kw)) = true
    · rw [if_pos h]
      obtain ⟨ext, heq, hsub, hacc⟩ := ih (acc ++ [c])
      refine ⟨c :: ext, by simpa using heq, hsub.cons₂ c, h, hacc⟩
    · rw [if_neg h]
      obtain ⟨ext, heq, hsub, hacc⟩ := ih acc
      exact ⟨ext, heq, hsub.cons c, hacc⟩

/-- Replaying the similarity-collapse loop on a list whose elements all
passed their comparisons accepts everything again. -/
theorem accepts_replay (t : ℚ) :
    ∀ (ext acc : List String), Accepts t acc ext → dedupGreedy t acc ext = acc ++ ext := by
  intro ext
  induction ext with
  | nil => intro acc _; simp [dedupGreedy]
  | cons c cs ih =>
    intro acc hacc
    obtain ⟨hc, hrest⟩ := hacc
    simp only [dedupGreedy]
    rw [if_pos hc, ih (acc ++ [c]) hrest]
    simp

/-- firstOccAux yields a duplicate-free list avoiding the seen-list. -/
theorem firstOccAux_nodup :
    ∀ (l seen : List String), (firstOccAux seen l).Nodup ∧
      ∀ x ∈ firstOccAux seen l, seen.contains x = false := by
  intro l
  induction l with
  | nil => intro seen; exact ⟨List.nodup_nil, fun x hx => absurd hx (List.not_mem_nil x)⟩
  | cons c cs ih =>
    intro seen
    simp only [firstOccAux]
    by_cases h : seen.contains c = true
    · rw [if_pos h]
      exact ih seen
    · rw [if_neg h]
      obtain ⟨hnd, hns⟩ := ih (c :: seen)
      refine ⟨List.nodup_cons.mpr ⟨?_, hnd⟩, ?_⟩
      · intro hc
        have := hns c hc
        simp [List.contains_cons] at this
      · intro x hx
        rcases List.mem_cons.mp hx with rfl | hxs
        · simpa using h
        · have := hns x hxs
          simp only [List.contains_cons, Bool.or_eq_false_iff] at this
          exact this.2

/-- firstOccAux is the identity on a duplicate-free list disjoint from
the seen-list. -/
theorem firstOccAux_eq_self :
    ∀ (l seen : List String), l.Nodup → (∀ x ∈ l, seen.contains x = false) →
      firstOccAux seen l = l := by
  intro l
  induction l with
  | nil => intro seen _ _; rfl
  | cons c cs ih =>
    intro seen hnd hdisj
    obtain ⟨hc, hcs⟩ := List.nodup_cons.mp hnd
    have hc0 : seen.contains c = false := hdisj c (List.mem_cons_self c cs)
    simp only [firstOccAux]
    rw [if_neg (by rw [hc0]; simp)]
    rw [ih (c :: seen) hcs]
    intro x hx
    simp only [List.contains_cons, Bool.or_eq_false_iff]
    constructor
    · simp only [beq_eq_false_iff_ne, ne_eq]
      intro he
      exact hc (he ▸ hx)
    · exact hdisj x (List.mem_cons_of_mem c hx)

/-- Mapping terms to scored pairs and projecting back is the identity. -/
theorem map_fst_map_pair (score : String → ℚ) :
    ∀ l : List String, (l.map fun s => (s, score s)).map Prod.fst = l := by
  intro l
  induction l with
  | nil => rfl
  | cons a as iha => simp only [List.map_cons, iha]

/-- C5: deduplication is idempotent: re-presenting the output of a
successful _deduplicate run as candidates (with any scores) and
deduplicating again at the same threshold returns the same term list.
Every output term passed the linguistic filter and every comparison
against the accepted prefix at its turn, so the replay accepts the whole
list unchanged. -/
theorem dedup_idempotent (kws : List (String × ℚ)) (t : ℚ) (res : List String)
    (score : String → ℚ) (hsome : deduplicate kws t = some res) :
    deduplicate (res.map fun s => (s, score s)) t = some res := by
  have hne : ∀ c ∈ firstOcc (kws.map Prod.fst), pySplit c ≠ [] :=
    dedupLoop_some_ne t (firstOcc (kws.map Prod.fst)) [] res hsome
  have heq := dedupLoop_eq_greedy t (firstOcc (kws.map Prod.fst)) [] hne
  rw [deduplicate] at hsome
  rw [hsome] at heq
  obtain ⟨ext, hge, hsub, hacc⟩ :=
    dedupGreedy_accepts t ((firstOcc (kws.map Prod.fst)).filter keepCandidate) []
  rw [hge] at heq
  simp only [List.nil_append] at heq
  have hres : res = ext := by
    injection heq
  subst hres
  have hFLnodup : ((firstOcc (kws.map Prod.fst)).filter keepCandidate).Nodup :=
    (firstOccAux_nodup (kws.map Prod.fst) []).1.filter keepCandidate
  have hnodup : res.Nodup := hFLnodup.sublist hsub
  have hkeep : ∀ x ∈ res, keepCandidate x = true := by
    intro x hx
    exact List.of_mem_filter (hsub.subset hx)
  have hne2 : ∀ c ∈ res, pySplit c ≠ [] := fun c hcm => split_ne_nil_of_keep (hkeep c hcm)
  have hmap := map_fst_map_pair score res
  rw [deduplicate, hmap, firstOcc, firstOccAux_eq_self res [] hnodup (by intro x _; rfl)]
  rw [dedupLoop_eq_greedy t res [] hne2]
  rw [List.filter_eq_self.mpr hkeep]
  rw [accepts_replay t res [] hacc]
  simp

/-- Witness for C5, at a concrete run. -/
theorem dedup_idempotent_witness :
    deduplicate [("good word", mkRat 1 2)] (mkRat 17 20) = some ["good word"] ∧
    deduplicate (["good word"].map fun s => (s, (0 : ℚ))) (mkRat 17 20) = some ["good word"] :=
  ⟨by decide,
   dedup_idempotent [("good word", mkRat 1 2)] (mkRat 17 20) ["good word"] (fun _ => 0)
     (by decide)⟩

/-! ## Theorems: threshold monotonicity of deduplication -/

/-- One accepting step of the similarity-collapse loop. -/
theorem greedy_step_accept (t : ℚ) (acc : List String) (c : String) (cs : List String)
    (h : (acc.all fun kw => !(t < distance c kw)) = true) :
    dedupGreedy t acc (c :: cs) = dedupGreedy t (acc ++ [c]) cs := by
  simp only [dedupGreedy, if_pos h]

/-- One rejecting step of the similarity-collapse loop. -/
theorem greedy_step_reject (t : ℚ) (acc : List String) (c : String) (cs : List String)
    (h : ¬(acc.all fun kw => !(t < distance c kw)) = true) :
    dedupGreedy t acc (c :: cs) = dedupGreedy t acc cs := by
  simp only [dedupGreedy, if_neg h]

/-- The similarity-collapse loop never shrinks the accepted list. -/
theorem greedy_acc_len (t : ℚ) (l acc : List String) :
    acc.length ≤ (dedupGreedy t acc l).length := by
  obtain ⟨ext, heq, _, _⟩ := dedupGreedy_accepts t l acc
  rw [heq]
  simp

/-- On at most three filter-surviving candidates the similarity collapse
is monotone in the threshold: every comparison that passes at the
smaller threshold passes at the larger one, and with at most three
candidates the diverging accepted lists cannot reverse the output
sizes. -/
theorem dedupGreedy_mono3 (t1 t2 : ℚ) (hle : t1 ≤ t2) :
    ∀ l : List String, l.length ≤ 3 →
      (dedupGreedy t1 [] l).length ≤ (dedupGreedy t2 [] l).length := by
  have hmono : ∀ (acc : List String) (c : String),
      (acc.all fun kw => !(t1 < distance c kw)) = true →
      (acc.all fun kw => !(t2 < distance c kw)) = true := by
    intro acc c h
    simp only [List.all_eq_true, Bool.not_eq_true', decide_eq_false_iff_not, not_lt] at h ⊢
    intro kw hkw
    exact le_trans (h kw hkw) hle
  intro l hlen
  match l with
  | [] => exact Nat.le_refl _
  | [a] =>
    rw [greedy_step_accept t1 [] a [] rfl, greedy_step_accept t2 [] a [] rfl]
    simp [dedupGreedy]
  | [a, b] =>
    rw [greedy_step_accept t1 [] a [b] rfl, greedy_step_accept t2 [] a [b] rfl]
    by_cases hb1 : (([] ++ [a]).all fun kw => !(t1 < distance b kw)) = true
    · rw [greedy_step_accept t1 ([] ++ [a]) b [] hb1,
        greedy_step_accept t2 ([] ++ [a]) b [] (hmono _ _ hb1)]
      simp [dedupGreedy]
    · rw [greedy_step_reject t1 ([] ++ [a]) b [] hb1]
      by_cases hb2 : (([] ++ [a]).all fun kw => !(t2 < distance b kw)) = true
      · rw [greedy_step_accept t2 ([] ++ [a]) b [] hb2]
        simp [dedupGreedy]
      · rw [greedy_step_reject t2 ([] ++ [a]) b [] hb2]
        simp [dedupGreedy]
  | [a, b, c] =>
    rw [greedy_step_accept t1 [] a [b, c] rfl, greedy_step_accept t2 [] a [b, c] rfl]
    by_cases hb1 : (([] ++ [a]).all fun kw => !(t1 < distance b kw)) = true
    · rw [greedy_step_accept t1 ([] ++ [a]) b [c] hb1,
        greedy_step_accept t2 ([] ++ [a]) b [c] (hmono _ _ hb1)]
      by_cases hc1 : ((([] ++ [a]) ++ [b]).all fun kw => !(t1 < distance c kw)) = true
      · rw [greedy_step_accept t1 (([] ++ [a]) ++ [b]) c [] hc1,
          greedy_step_accept t2 (([] ++ [a]) ++ [b]) c [] (hmono _ _ hc1)]
        simp [dedupGreedy]
      · rw [greedy_step_reject t1 (([] ++ [a]) ++ [b]) c [] hc1]
        by_cases hc2 : ((([] ++ [a]) ++ [b]).all fun kw => !(t2 < distance c kw)) = true
        · rw [greedy_step_accept t2 (([] ++ [a]) ++ [b]) c [] hc2]
          simp [dedupGreedy]
        · rw [greedy_step_reject t2 (([] ++ [a]) ++ [b]) c [] hc2]
          simp [dedupGreedy]
    · rw [greedy_step_reject t1 ([] ++ [a]) b [c] hb1]
      by_cases hb2 : (([] ++ [a]).all fun kw => !(t2 < distance b kw)) = true
      · rw [greedy_step_accept t2 ([] ++ [a]) b [c] hb2]
        have h1le : (dedupGreedy t1 ([] ++ [a]) [c]).length ≤ 2 := by
          by_cases hc1 : (([] ++ [a]).all fun kw => !(t1 < distance c kw)) = true
          · rw [greedy_step_accept t1 ([] ++ [a]) c [] hc1]
            simp [dedupGreedy]
          · rw [greedy_step_reject t1 ([] ++ [a]) c [] hc1]
            simp [dedupGreedy]
        have h2ge : 2 ≤ (dedupGreedy t2 (([] ++ [a]) ++ [b]) [c]).length := by
          have h := greedy_acc_len t2 [c] (([] ++ [a]) ++ [b])
          simpa using h
        omega
      · rw [greedy_step_reject t2 ([] ++ [a]) b [c] hb2]
        by_cases hc1 : (([] ++ [a]).all fun kw => !(t1 < distance c kw)) = true
        · rw [greedy_step_accept t1 ([] ++ [a]) c [] hc1,
            greedy_step_accept t2 ([] ++ [a]) c [] (hmono _ _ hc1)]
          simp [dedupGreedy]
        · rw [greedy_step_reject t1 ([] ++ [a]) c [] hc1]
          by_cases hc2 : (([] ++ [a]).all fun kw => !(t2 < distance c kw)) = true
          · rw [greedy_step_accept t2 ([] ++ [a]) c [] hc2]
            simp [dedupGreedy]
          · rw [greedy_step_reject t2 ([] ++ [a]) c [] hc2]
            simp [dedupGreedy]

/-- C4 counterexample: four filter-surviving candidates on which the
looser threshold 7/10 yields THREE keywords while the stricter 4/5
yields TWO: at 4/5 the candidate "abcdef" is accepted and then blocks
both "abcdzz" and "abqqef", while at 7/10 "abcdef" is itself rejected
against "zzcdef" and the two later candidates survive. -/
theorem dedup_threshold_monotonicity_counterexample :
    mkRat 7 10 < mkRat 4 5 ∧
    deduplicate [("zzcdef", 0), ("abcdef", 0), ("abcdzz", 0), ("abqqef", 0)] (mkRat 7 10) =
      some ["zzcdef", "abcdzz", "abqqef"] ∧
    deduplicate [("zzcdef", 0), ("abcdef", 0), ("abcdzz", 0), ("abqqef", 0)] (mkRat 4 5) =
      some ["zzcdef", "abcdef"] := by
  decide

/-- C4 (amended): the threshold monotonicity law
len(dedup(X, t1)) <= len(dedup(X, t2)) for t1 < t2 holds for candidate
lists with at most three distinct filter-surviving terms (the
counterexample shows it fails from four candidates on). -/
theorem dedup_threshold_monotonicity_small
    (kws : List (String × ℚ)) (t1 t2 : ℚ) (r1 r2 : List String)
    (hlt : t1 < t2)
    (hsmall : ((firstOcc (kws.map Prod.fst)).filter keepCandidate).length ≤ 3)
    (h1 : deduplicate kws t1 = some r1) (h2 : deduplicate kws t2 = some r2) :
    r1.length ≤ r2.length := by
  have hne := dedupLoop_some_ne t1 (firstOcc (kws.map Prod.fst)) [] r1 h1
  have he1 := dedupLoop_eq_greedy t1 (firstOcc (kws.map Prod.fst)) [] hne
  have he2 := dedupLoop_eq_greedy t2 (firstOcc (kws.map Prod.fst)) [] hne
  rw [deduplicate] at h1 h2
  rw [h1] at he1
  rw [h2] at he2
  rw [Option.some.inj he1, Option.some.inj he2]
  exact dedupGreedy_mono3 t1 t2 (le_of_lt hlt) _ hsmall

/-- Witness for C4 (amended), at a two-candidate list and the thresholds
1/2 < 3/4. -/
theorem dedup_threshold_monotonicity_small_witness :
    (["alpha", "beta"] : List String).length ≤ (["alpha", "beta"] : List String).length :=
  dedup_threshold_monotonicity_small [("alpha", 0), ("beta", 0)] (mkRat 1 2) (mkRat 3 4)
    ["alpha", "beta"] ["alpha", "beta"] (by decide) (by decide) (by decide) (by decide)
